import Mathlib

/-!
Shallow embedding of the `randvar` package (files `src/randvar/core.py`,
`src/randvar/statistics.py`, `src/randvar/distributions.py`).

Python dictionaries are modelled as association lists `List (α × ℚ)` in
insertion order (a dictionary never has duplicate keys, so theorems about
constructed objects carry a `Nodup` hypothesis on the keys).  Python numbers
are modelled as exact rationals `ℚ`.  A raised Python exception is modelled
with `Except`.  The `random()` draw consumed by `choice` is passed in as an
explicit argument, and the possibly diverging binary-search loop is given an
explicit fuel bound; the theorems below show the fuel used by the embedded
functions is never exhausted on the executions they describe.
-/

namespace Randvar

/-- Model of the `SearchNode`/`PercentileNode` named tuples: one interval
`[lower, upper)` of cumulative weight, carrying the associated value. -/
structure SearchNode (α : Type) where
  value : α
  lower : ℚ
  upper : ℚ
  deriving Repr, DecidableEq

/-- Errors actually raised by `RandomVariable.__init__` in
`src/randvar/core.py`: the `assert 0 <= prob` statement (an
`AssertionError`) and the `ZeroDistributionError` class.  The module defines
no other error class. -/
inductive RVError
  | assertNegativeWeight
  | zeroDistribution
  deriving Repr, DecidableEq

/-- Model of the `RandomVariable` object state after `__init__`:
`dist` is `self._dist` (pruned of zero weights), `weight_sum` is
`self._weight_sum`, `search` is `self._search`. -/
structure RandomVariable (α : Type) where
  dist : List (α × ℚ)
  weight_sum : ℚ
  search : List (SearchNode α)
  deriving Repr, DecidableEq

/-- `sum(dist.values())`. -/
def weightSumOf {α : Type} (d : List (α × ℚ)) : ℚ :=
  (d.map (fun kv => kv.2)).sum

/-- The index-building loop of `__init__` (and the node-building loop of
`percentile`): for each entry in order, emit a node `(value, cum, cum + w)`
and advance the running total `cum`. -/
def buildNodes {α : Type} : List (α × ℚ) → ℚ → List (SearchNode α)
  | [], _ => []
  | kv :: rest, cum => ⟨kv.1, cum, cum + kv.2⟩ :: buildNodes rest (cum + kv.2)

/-- Model of `RandomVariable.__init__(dist)`: the `assert 0 <= prob` loop,
the `weight_sum == 0` check raising `ZeroDistributionError`, pruning of
zero-weight entries from `self._dist`, and the search-index build.  Note the
index loop in the source iterates over the ORIGINAL `dist` argument, not the
pruned `self._dist`. -/
def mkRV {α : Type} (d : List (α × ℚ)) : Except RVError (RandomVariable α) :=
  if d.any (fun kv => kv.2 < 0) then .error .assertNegativeWeight
  else if weightSumOf d = 0 then .error .zeroDistribution
  else .ok { dist := d.filter (fun kv => kv.2 ≠ 0)
           , weight_sum := weightSumOf d
           , search := buildNodes d 0 }

/-- First-match lookup in an association list: the model of `dict[key]`
(returning `none` where Python would raise `KeyError`). -/
def lookupW {α : Type} [DecidableEq α] : List (α × ℚ) → α → Option ℚ
  | [], _ => none
  | kv :: rest, v => if kv.1 = v then some kv.2 else lookupW rest v

/-- Weight of a value, taking absent values as weight `0`. -/
def weightOf {α : Type} [DecidableEq α] (d : List (α × ℚ)) (v : α) : ℚ :=
  (lookupW d v).getD 0

/-- Model of `RandomVariable.__getitem__`: `dist[val] / weight_sum` when
present, else `0`. -/
def RandomVariable.prob {α : Type} [DecidableEq α]
    (rv : RandomVariable α) (v : α) : ℚ :=
  match lookupW rv.dist v with
  | some w => w / rv.weight_sum
  | none => 0

/-- Model of the `RandomVariable.dist()` method: the `(value, probability)`
pairs, in order. -/
def RandomVariable.distPairs {α : Type} (rv : RandomVariable α) :
    List (α × ℚ) :=
  rv.dist.map (fun kv => (kv.1, kv.2 / rv.weight_sum))

/-- Outcome of the binary-search loop shared by `choice` and `percentile`:
a returned value, an `IndexError` from `nodes[ind]`, or exhaustion of the
fuel bound (never reached in the theorems below). -/
inductive SearchResult (α : Type)
  | found (a : α)
  | indexError
  | fuelOut
  deriving Repr, DecidableEq

/-- The binary-search loop of `choice` and of `percentile`: compute
`ind = (bot + top) // 2`, read `nodes[ind]`, stop when
`lower <= x < upper`, otherwise shrink `[bot, top)` and repeat. -/
def searchLoop {α : Type} (nodes : List (SearchNode α)) (x : ℚ) :
    ℕ → ℕ → ℕ → SearchResult α
  | 0, _, _ => .fuelOut
  | fuel + 1, bot, top =>
    match nodes[(bot + top) / 2]? with
    | none => .indexError
    | some item =>
      if x < item.lower then searchLoop nodes x fuel bot ((bot + top) / 2)
      else if item.upper ≤ x then
        searchLoop nodes x fuel ((bot + top) / 2 + 1) top
      else .found item.value

/-- Model of `RandomVariable.choice`, with the uniform draw
`x = random() * weight_sum` passed in explicitly.  The loop runs with fuel
`len + 1`, which the correctness theorem shows is never exhausted. -/
def RandomVariable.choice {α : Type} (rv : RandomVariable α) (x : ℚ) :
    SearchResult α :=
  searchLoop rv.search x (rv.search.length + 1) 0 rv.search.length

/-- Structural invariant enjoyed by every successfully constructed
`RandomVariable` (proved below in `mkRV_valid`): positive stored weights,
duplicate-free keys, and a positive weight sum equal to the sum of the
stored weights. -/
structure Valid {α : Type} (rv : RandomVariable α) : Prop where
  pos : ∀ kv ∈ rv.dist, 0 < kv.2
  nodup : (rv.dist.map (fun kv => kv.1)).Nodup
  sum_eq : rv.weight_sum = weightSumOf rv.dist
  sum_pos : 0 < rv.weight_sum

/-! ## The combinator `rand_apply` (src/randvar/core.py) -/

/-- An argument to `rand_apply`: either a `RandomVariable` or a constant. -/
inductive Arg (α : Type)
  | rv (x : RandomVariable α)
  | const (c : α)

/-- The one-point variable `RandomVariable({c: 1})`; `mkRV_const` below
checks this equals the constructor output on `{c: 1}`. -/
def constRV {α : Type} (c : α) : RandomVariable α :=
  { dist := [(c, 1)], weight_sum := 1, search := [⟨c, 0, 1⟩] }

/-- The coercion performed by the argument-preparation loops of
`rand_apply`. -/
def Arg.toRV {α : Type} : Arg α → RandomVariable α
  | .rv x => x
  | .const c => constRV c

/-- Model of `itertools.product` on lists of `(value, weight)` items, with
the rightmost factor varying fastest. -/
def listProd {α : Type} : List (List α) → List (List α)
  | [] => [[]]
  | l :: ls => l.flatMap (fun x => (listProd ls).map (fun c => x :: c))

/-- Model of the dictionary accumulation
`if val not in dist: dist[val] = prob else: dist[val] += prob`:
an existing key keeps its position, a new key is appended. -/
def addWeight {α : Type} [DecidableEq α] (d : List (α × ℚ)) (v : α)
    (p : ℚ) : List (α × ℚ) :=
  if (lookupW d v).isSome then
    d.map (fun kv => if kv.1 = v then (kv.1, kv.2 + p) else kv)
  else d ++ [(v, p)]

/-- The enumeration order of the two nested loops of `rand_apply`: the
outer loop over the product of the positional supports, the inner loop over
the product of the keyword supports. -/
def comboList {α : Type} (argsD kwargsD : List (List (α × ℚ))) :
    List (List (α × ℚ) × List (α × ℚ)) :=
  (listProd argsD).flatMap (fun ac => (listProd kwargsD).map (fun kc => (ac, kc)))

/-- The joint weight `functools.reduce(operator.mul,
itertools.chain(args_prob, kwargs_prob), 1)` of one combination. -/
def comboWeight {α : Type} (c : List (α × ℚ) × List (α × ℚ)) : ℚ :=
  ((c.1.map (fun kv => kv.2)) ++ (c.2.map (fun kv => kv.2))).foldl (· * ·) 1

/-- The call `func(*args_inst, **kwargs_inst)` on one combination, with the
keyword values routed through the ordered name list. -/
def comboCall {α β ε : Type} (f : List α → List (String × α) → Except ε β)
    (names : List String) (c : List (α × ℚ) × List (α × ℚ)) : Except ε β :=
  f (c.1.map (fun kv => kv.1)) (names.zip (c.2.map (fun kv => kv.1)))

/-- The accumulation loop body of `rand_apply`: walk the combinations in
order; where the joint weight is positive, evaluate `func` (propagating any
failure immediately) and accumulate the weight under the result key. -/
def accumApply {α β ε : Type} [DecidableEq β]
    (f : List α → List (String × α) → Except ε β) (names : List String) :
    List (List (α × ℚ) × List (α × ℚ)) → List (β × ℚ) →
    Except ε (List (β × ℚ))
  | [], acc => .ok acc
  | c :: rest, acc =>
    if 0 < comboWeight c then
      match comboCall f names c with
      | .error e => .error e
      | .ok v => accumApply f names rest (addWeight acc v (comboWeight c))
    else accumApply f names rest acc

/-- Failure modes of `rand_apply`: an error raised by the lifted function,
or one raised by the final `RandomVariable` construction. -/
inductive ApplyError (ε : Type)
  | fnError (e : ε)
  | rvError (e : RVError)
  deriving Repr

/-- Model of `rand_apply(func, *args, **kwargs)`: coerce constants to
one-point variables, enumerate the Cartesian product of the positional and
keyword supports, accumulate joint weights keyed by the function result,
and construct the output variable. -/
def rand_apply {α β ε : Type} [DecidableEq β]
    (f : List α → List (String × α) → Except ε β)
    (args : List (Arg α)) (kwargs : List (String × Arg α)) :
    Except (ApplyError ε) (RandomVariable β) :=
  let rand_args := args.map Arg.toRV
  let ordered_names := kwargs.map (fun nk => nk.1)
  let rand_kwargs := kwargs.map (fun nk => nk.2.toRV)
  match accumApply f ordered_names
      (comboList (rand_args.map (fun rv => rv.dist))
                 (rand_kwargs.map (fun rv => rv.dist))) [] with
  | .error e => .error (.fnError e)
  | .ok d =>
    match mkRV d with
    | .error e => .error (.rvError e)
    | .ok rv => .ok rv

/-! ## Statistics (src/randvar/statistics.py) and uniform
(src/randvar/distributions.py) -/

/-- Model of `expected_value`: `sum(val * weight) / weight_sum`. -/
def expected_value (rv : RandomVariable ℚ) : ℚ :=
  (rv.dist.map (fun kv => kv.1 * kv.2)).sum / rv.weight_sum

/-- The node list of `percentile`: support values sorted ascending (a
stable sort, matching Python `sorted`), each paired with its weight
`var._dist[val]`, cumulated from `0`. -/
def percentileNodes {α : Type} [DecidableEq α] [LinearOrder α]
    (rv : RandomVariable α) : List (SearchNode α) :=
  buildNodes
    ((List.insertionSort (· ≤ ·) (rv.dist.map (fun kv => kv.1))).map
      (fun v => (v, weightOf rv.dist v))) 0

/-- Model of `percentile(var, p)`: binary search of the cumulative nodes
for the target mass `p * weight_sum`, with the same loop as `choice`. -/
def percentile {α : Type} [DecidableEq α] [LinearOrder α]
    (rv : RandomVariable α) (p : ℚ) : SearchResult α :=
  searchLoop (percentileNodes rv) (p * rv.weight_sum)
    ((percentileNodes rv).length + 1) 0 (percentileNodes rv).length

/-- The list `sorted(var._dist.keys(), key=lambda val: var[val],
reverse=True)` of `mode`: a stable descending sort by probability, here
realised by insertion sort with the reversed comparison (extensionally
equal to Python's stable `sorted` with `reverse=True`). -/
def modeOrder {α : Type} [DecidableEq α] (rv : RandomVariable α) : List α :=
  List.insertionSort (fun a b => rv.prob b ≤ rv.prob a)
    (rv.dist.map (fun kv => kv.1))

/-- Model of `mode(var, k)`: the `k-1` indexing into the sorted key list,
with `none` where Python would raise `IndexError`. -/
def mode {α : Type} [DecidableEq α] (rv : RandomVariable α) (k : ℕ) :
    Option α :=
  (modeOrder rv)[k - 1]?

/-- The helper `sqr` local to `variance`. -/
def sqr (x : ℚ) : ℚ := x * x

/-- The lifted squaring function handed by `variance` to `rand_apply`; it
is called with exactly one positional argument. -/
def sqrFn : List ℚ → List (String × ℚ) → Except Empty ℚ :=
  fun a _ => .ok (sqr (a.headD 0))

/-- Model of `variance(var)`:
`expected_value(rand_apply(sqr, var)) - sqr(expected_value(var))`. -/
def variance (rv : RandomVariable ℚ) : Except (ApplyError Empty) ℚ :=
  (rand_apply sqrFn [Arg.rv rv] []).map
    (fun sq => expected_value sq - sqr (expected_value rv))

/-- Model of `uniform(iterable)`: `RandomVariable({val: 1 for val in
iterable})`. -/
def uniform {α : Type} (l : List α) : Except RVError (RandomVariable α) :=
  mkRV (l.map (fun v => (v, 1)))

/-- Cumulative weight of the first `i` entries; `buildNodes_get` below
identifies it with the node bounds. -/
def cumW {α : Type} (d : List (α × ℚ)) (i : ℕ) : ℚ :=
  ((d.take i).map (fun kv => kv.2)).sum

/-- Lifting of a pure (never raising) Python function into the fallible
shape `rand_apply` consumes. -/
def pureFn {α β : Type} (f : List α → List (String × α) → β) :
    List α → List (String × α) → Except Empty β :=
  fun a k => .ok (f a k)

/-- The value a pure lifted function produces on one combination. -/
def comboOutput {α β : Type} (f : List α → List (String × α) → β)
    (names : List String) (c : List (α × ℚ) × List (α × ℚ)) : β :=
  f (c.1.map (fun kv => kv.1)) (names.zip (c.2.map (fun kv => kv.1)))

/-- The per-argument weight totals, positional arguments first, in the
order `rand_apply` enumerates them. -/
def argWeightSums {α : Type} (args : List (Arg α))
    (kwargs : List (String × Arg α)) : List ℚ :=
  (args.map (fun a => a.toRV.weight_sum)) ++
    (kwargs.map (fun nk => nk.2.toRV.weight_sum))

/-- The product of the per-argument probabilities of one combination: each
chosen `(value, weight)` pair contributes `weight / weight_sum` of its
argument. -/
def jointProbability {α : Type} (svals : List ℚ)
    (c : List (α × ℚ) × List (α × ℚ)) : ℚ :=
  (((c.1 ++ c.2).zip svals).map (fun p => p.1.2 / p.2)).prod

/-- Validity of a prepared argument: a `RandomVariable` argument must be a
constructed one; a constant carries no obligation. -/
def ArgValid {α : Type} : Arg α → Prop
  | .rv x => Valid x
  | .const _ => True

/-- The accumulation loop of `rand_apply` specialised to a lifted function
that never fails; `accumApply_pureFn` below shows `accumApply` on a pure
function reduces to it. -/
def accumPure {α β : Type} [DecidableEq β]
    (f : List α → List (String × α) → β) (names : List String) :
    List (List (α × ℚ) × List (α × ℚ)) → List (β × ℚ) → List (β × ℚ)
  | [], acc => acc
  | c :: rest, acc =>
    if 0 < comboWeight c then
      accumPure f names rest
        (addWeight acc (comboOutput f names c) (comboWeight c))
    else accumPure f names rest acc

/-- A small concrete input mapping `{0: 1, 1: 2}` used by the witness
instantiations below. -/
def demoDist : List (ℚ × ℚ) := [(0, 1), (1, 2)]

/-- The variable the constructor builds from `demoDist`. -/
def demoRV : RandomVariable ℚ :=
  { dist := [(0, 1), (1, 2)], weight_sum := 3
  , search := [⟨0, 0, 0 + 1⟩, ⟨1, 0 + 1, 0 + 1 + 2⟩] }

/-- A concrete input mapping `{0: 1, 1: 0}` with a zero-weight entry. -/
def demoDistZ : List (ℚ × ℚ) := [(0, 1), (1, 0)]

/-- The variable the constructor builds from `demoDistZ`: the entry `1` is
pruned from the distribution but still contributes an (empty) interval to
the sampling index. -/
def demoRVZ : RandomVariable ℚ :=
  { dist := [(0, 1)], weight_sum := 1
  , search := [⟨0, 0, 0 + 1⟩, ⟨1, 0 + 1, 0 + 1 + 0⟩] }

end Randvar

namespace Randvar

/-! ## Basic lemmas about lookup, sums and the index build -/

theorem lookupW_eq_some_of_nodup {α : Type} [DecidableEq α]
    {d : List (α × ℚ)} (hnd : (d.map (fun kv => kv.1)).Nodup)
    {kv : α × ℚ} (hkv : kv ∈ d) : lookupW d kv.1 = some kv.2 := by
  induction d with
  | nil => cases hkv
  | cons a rest ih =>
    simp only [List.map_cons, List.nodup_cons] at hnd
    rcases List.mem_cons.mp hkv with h | h
    · subst h
      simp [lookupW]
    · have hne : a.1 ≠ kv.1 := by
        intro he
        exact hnd.1 (he ▸ List.mem_map_of_mem (fun kv => kv.1) h)
      simp only [lookupW, if_neg hne]
      exact ih hnd.2 h

theorem lookupW_eq_none_iff {α : Type} [DecidableEq α]
    {d : List (α × ℚ)} {v : α} :
    lookupW d v = none ↔ v ∉ d.map (fun kv => kv.1) := by
  induction d with
  | nil => simp [lookupW]
  | cons a rest ih =>
    by_cases h : a.1 = v
    · simp [lookupW, h]
    · simp [lookupW, h, ih, Ne.symm h]

theorem weightSumOf_filter_ne {α : Type} (d : List (α × ℚ)) :
    weightSumOf (d.filter (fun kv => kv.2 ≠ 0)) = weightSumOf d := by
  induction d with
  | nil => rfl
  | cons a rest ih =>
    by_cases h : a.2 = 0 <;>
      simp [weightSumOf, List.filter_cons, h, weightSumOf] at ih ⊢ <;>
      simp [ih, h]

theorem weightSumOf_nonneg {α : Type} {d : List (α × ℚ)}
    (hw : ∀ kv ∈ d, 0 ≤ kv.2) : 0 ≤ weightSumOf d := by
  refine List.sum_nonneg ?_
  intro q hq
  rcases List.mem_map.mp hq with ⟨kv, hkv, rfl⟩
  exact hw kv hkv

/-- Unpacking a successful `mkRV` call. -/
theorem mkRV_ok {α : Type} {d : List (α × ℚ)} {rv : RandomVariable α}
    (h : mkRV d = .ok rv) :
    (∀ kv ∈ d, 0 ≤ kv.2) ∧ weightSumOf d ≠ 0 ∧
    rv.dist = d.filter (fun kv => kv.2 ≠ 0) ∧
    rv.weight_sum = weightSumOf d ∧ rv.search = buildNodes d 0 := by
  unfold mkRV at h
  by_cases hneg : d.any (fun kv => kv.2 < 0)
  · simp [hneg] at h
  · by_cases hz : weightSumOf d = 0
    · simp [hneg, hz] at h
    · rw [if_neg hneg, if_neg hz] at h
      have hrv := (Except.ok.inj h).symm
      subst hrv
      have hneg2 : ∀ kv ∈ d, ¬kv.2 < 0 := by simpa using hneg
      exact ⟨fun kv hkv => le_of_not_lt (hneg2 kv hkv), hz, rfl, rfl, rfl⟩

/-- A successful `mkRV` on a duplicate-free mapping yields the structural
invariant. -/
theorem mkRV_valid {α : Type} {d : List (α × ℚ)} {rv : RandomVariable α}
    (hnd : (d.map (fun kv => kv.1)).Nodup) (h : mkRV d = .ok rv) :
    Valid rv := by
  obtain ⟨hw, hz, hdist, hsum, _⟩ := mkRV_ok h
  have hsub : rv.dist.Sublist d := hdist ▸ List.filter_sublist d
  refine ⟨?_, ?_, ?_, ?_⟩
  · intro kv hkv
    have hmem := hdist ▸ hkv
    have h2 : kv.2 ≠ 0 := by simpa using List.of_mem_filter hmem
    have h1 : kv ∈ d := List.mem_of_mem_filter hmem
    exact lt_of_le_of_ne (hw kv h1) (Ne.symm h2)
  · exact List.Nodup.sublist (hsub.map (fun kv => kv.1)) hnd
  · rw [hsum, hdist, weightSumOf_filter_ne]
  · rw [hsum]
    exact lt_of_le_of_ne (weightSumOf_nonneg hw) (Ne.symm hz)

/-- The constructor output on the one-point mapping `{c: 1}` used for
constant arguments. -/
theorem mkRV_const {α : Type} (c : α) : mkRV [(c, 1)] = .ok (constRV c) := by
  simp [mkRV, weightSumOf, buildNodes, constRV]

theorem constRV_valid {α : Type} (c : α) : Valid (constRV c) := by
  refine ⟨?_, ?_, ?_, ?_⟩ <;> simp [constRV, weightSumOf]

/-! ## Cumulative weights and the node list -/

theorem cumW_zero {α : Type} (d : List (α × ℚ)) : cumW d 0 = 0 := rfl

theorem cumW_cons {α : Type} (kv : α × ℚ) (rest : List (α × ℚ)) (i : ℕ) :
    cumW (kv :: rest) (i + 1) = kv.2 + cumW rest i := by
  simp [cumW, List.take_succ_cons]

theorem cumW_length {α : Type} (d : List (α × ℚ)) :
    cumW d d.length = weightSumOf d := by
  simp [cumW, weightSumOf, List.take_length]

theorem cumW_of_length_le {α : Type} {d : List (α × ℚ)} {i : ℕ}
    (h : d.length ≤ i) : cumW d i = weightSumOf d := by
  simp [cumW, weightSumOf, List.take_of_length_le h]

theorem cumW_succ {α : Type} {d : List (α × ℚ)} {i : ℕ} (hi : i < d.length) :
    cumW d (i + 1) = cumW d i + d[i].2 := by
  induction d generalizing i with
  | nil => simp at hi
  | cons a rest ih =>
    cases i with
    | zero => simp [cumW_cons, cumW_zero]
    | succ j =>
      have hj : j < rest.length := by simpa using hi
      simp only [cumW_cons, List.getElem_cons_succ, ih hj]
      ring

theorem cumW_mono {α : Type} {d : List (α × ℚ)}
    (hw : ∀ kv ∈ d, 0 ≤ kv.2) {i j : ℕ} (hij : i ≤ j) :
    cumW d i ≤ cumW d j := by
  obtain ⟨k, rfl⟩ := Nat.exists_eq_add_of_le hij
  have : cumW d (i + k) = cumW d i + (((d.drop i).take k).map (fun kv => kv.2)).sum := by
    simp [cumW, List.take_add, List.sum_append]
  rw [this]
  have hnn : 0 ≤ (((d.drop i).take k).map (fun kv => kv.2)).sum := by
    refine List.sum_nonneg ?_
    intro q hq
    rcases List.mem_map.mp hq with ⟨kv, hkv, rfl⟩
    exact hw kv (List.mem_of_mem_drop (List.mem_of_mem_take hkv))
  linarith

theorem cumW_le_sum {α : Type} {d : List (α × ℚ)}
    (hw : ∀ kv ∈ d, 0 ≤ kv.2) (i : ℕ) : cumW d i ≤ weightSumOf d := by
  rcases le_or_lt d.length i with h | h
  · rw [cumW_of_length_le h]
  · rw [← cumW_length]
    exact cumW_mono hw (le_of_lt h)

theorem buildNodes_length {α : Type} (d : List (α × ℚ)) (c : ℚ) :
    (buildNodes d c).length = d.length := by
  induction d generalizing c with
  | nil => rfl
  | cons a rest ih => simp [buildNodes, ih]

theorem buildNodes_getElem? {α : Type} (d : List (α × ℚ)) (c : ℚ) (i : ℕ) :
    (buildNodes d c)[i]? =
      (d[i]?).map (fun kv => ⟨kv.1, c + cumW d i, c + cumW d (i + 1)⟩) := by
  induction d generalizing c i with
  | nil => simp [buildNodes]
  | cons a rest ih =>
    cases i with
    | zero =>
      simp [buildNodes, cumW_zero, cumW_cons]
    | succ j =>
      simp only [buildNodes, List.getElem?_cons_succ, ih, cumW_cons]
      simp only [add_assoc]

end Randvar

namespace Randvar

/-! ## Correctness of the shared binary-search loop -/

/-- Two cumulative intervals containing the same point coincide. -/
theorem containing_eq {α : Type} {d : List (α × ℚ)}
    (hw : ∀ kv ∈ d, 0 ≤ kv.2) {x : ℚ} {i j : ℕ}
    (hi1 : cumW d i ≤ x) (hi2 : x < cumW d (i + 1))
    (hj1 : cumW d j ≤ x) (hj2 : x < cumW d (j + 1)) : i = j := by
  by_contra hne
  rcases lt_or_gt_of_ne hne with h | h
  · have hij : cumW d (i + 1) ≤ cumW d j := cumW_mono hw h
    linarith
  · have hji : cumW d (j + 1) ≤ cumW d i := cumW_mono hw h
    linarith

/-- Any mass point below the total weight lies in some cumulative
interval. -/
theorem exists_containing {α : Type} {d : List (α × ℚ)} {x : ℚ}
    (hw : ∀ kv ∈ d, 0 ≤ kv.2) (hx0 : 0 ≤ x) (hx : x < weightSumOf d) :
    ∃ j, j < d.length ∧ cumW d j ≤ x ∧ x < cumW d (j + 1) := by
  induction d generalizing x with
  | nil =>
    exfalso
    simp [weightSumOf] at hx
    linarith
  | cons a rest ih =>
    by_cases h : x < a.2
    · refine ⟨0, by simp, by simpa [cumW_zero] using hx0, ?_⟩
      simpa [cumW_cons, cumW_zero] using h
    · have hw2 : ∀ kv ∈ rest, 0 ≤ kv.2 :=
        fun kv hkv => hw kv (List.mem_cons_of_mem a hkv)
      have hx0h : 0 ≤ x - a.2 := by
        have := le_of_not_lt h
        linarith
      have hxh : x - a.2 < weightSumOf rest := by
        have hsum : weightSumOf (a :: rest) = a.2 + weightSumOf rest := by
          simp [weightSumOf]
        linarith
      obtain ⟨j, hj, h1, h2⟩ := ih hw2 hx0h hxh
      refine ⟨j + 1, by simpa using hj, ?_, ?_⟩
      · rw [cumW_cons]; linarith
      · rw [cumW_cons]; linarith

/-- The binary-search loop returns the value of the interval containing
`x`, for any bracket `[bot, top)` containing that interval and any
sufficient fuel. -/
theorem searchLoop_found {α : Type} {d : List (α × ℚ)} {x : ℚ}
    (hw : ∀ kv ∈ d, 0 ≤ kv.2) {j : ℕ} (hj : j < d.length)
    (hx1 : cumW d j ≤ x) (hx2 : x < cumW d (j + 1)) :
    ∀ fuel bot top, bot ≤ j → j < top → top ≤ d.length → top - bot < fuel →
      searchLoop (buildNodes d 0) x fuel bot top = .found d[j].1 := by
  intro fuel
  induction fuel with
  | zero =>
    intro bot top h1 h2 h3 h4
    omega
  | succ f ih =>
    intro bot top h1 h2 h3 h4
    have hbt : bot < top := lt_of_le_of_lt h1 h2
    have hi1 : bot ≤ (bot + top) / 2 := by omega
    have hi2 : (bot + top) / 2 < top := by omega
    have hilen : (bot + top) / 2 < d.length := lt_of_lt_of_le hi2 h3
    have hnode : (buildNodes d 0)[(bot + top) / 2]? =
        some ⟨d[(bot + top) / 2].1, cumW d ((bot + top) / 2),
              cumW d ((bot + top) / 2 + 1)⟩ := by
      rw [buildNodes_getElem?, List.getElem?_eq_getElem hilen]
      simp [cumW_zero]
    simp only [searchLoop, hnode]
    by_cases hlt : x < cumW d ((bot + top) / 2)
    · rw [if_pos hlt]
      have hjlt : j < (bot + top) / 2 := by
        by_contra hc
        have : cumW d ((bot + top) / 2) ≤ cumW d j :=
          cumW_mono hw (le_of_not_lt hc)
        linarith
      exact ih bot ((bot + top) / 2) h1 hjlt (le_of_lt hilen) (by omega)
    · by_cases hge : cumW d ((bot + top) / 2 + 1) ≤ x
      · rw [if_neg hlt, if_pos hge]
        have hjgt : (bot + top) / 2 < j := by
          by_contra hc
          have : cumW d (j + 1) ≤ cumW d ((bot + top) / 2 + 1) :=
            cumW_mono hw (by omega)
          linarith
        exact ih ((bot + top) / 2 + 1) top hjgt h2 h3 (by omega)
      · rw [if_neg hlt, if_neg hge]
        have heq : (bot + top) / 2 = j :=
          containing_eq hw (le_of_not_lt hlt) (lt_of_not_le hge) hx1 hx2
        subst heq
        rfl

/-- When the target lies at or beyond the total weight, the loop walks off
the right end of the node list and hits an out-of-range access. -/
theorem searchLoop_off {α : Type} {d : List (α × ℚ)} {x : ℚ}
    (hw : ∀ kv ∈ d, 0 ≤ kv.2) (hx : weightSumOf d ≤ x) :
    ∀ fuel bot, bot ≤ d.length → d.length - bot < fuel →
      searchLoop (buildNodes d 0) x fuel bot d.length = .indexError := by
  intro fuel
  induction fuel with
  | zero =>
    intro bot h1 h2
    omega
  | succ f ih =>
    intro bot h1 h2
    rcases eq_or_lt_of_le h1 with heq | hlt
    · have hnone : (buildNodes d 0)[(bot + d.length) / 2]? = none := by
        rw [buildNodes_getElem?, List.getElem?_eq_none (by omega : d.length ≤ (bot + d.length) / 2)]
        rfl
      simp only [searchLoop, hnone]
    · have hilen : (bot + d.length) / 2 < d.length := by omega
      have hnode : (buildNodes d 0)[(bot + d.length) / 2]? =
          some ⟨d[(bot + d.length) / 2].1, cumW d ((bot + d.length) / 2),
                cumW d ((bot + d.length) / 2 + 1)⟩ := by
        rw [buildNodes_getElem?, List.getElem?_eq_getElem hilen]
        simp [cumW_zero]
      have hlow : cumW d ((bot + d.length) / 2) ≤ x :=
        le_trans (cumW_le_sum hw _) hx
      have hup : cumW d ((bot + d.length) / 2 + 1) ≤ x :=
        le_trans (cumW_le_sum hw _) hx
      simp only [searchLoop, hnode]
      rw [if_neg (not_lt.mpr hlow), if_pos hup]
      exact ih ((bot + d.length) / 2 + 1) (by omega) (by omega)

end Randvar

namespace Randvar

theorem buildNodes_zero_getElem? {α : Type} (d : List (α × ℚ)) (i : ℕ) :
    (buildNodes d 0)[i]? =
      (d[i]?).map (fun kv => ⟨kv.1, cumW d i, cumW d (i + 1)⟩) := by
  rw [buildNodes_getElem?]
  simp [zero_add]

theorem mem_buildNodes {α : Type} {d : List (α × ℚ)} {n : SearchNode α} :
    n ∈ buildNodes d 0 ↔
      ∃ i, ∃ hi : i < d.length, n = ⟨d[i].1, cumW d i, cumW d (i + 1)⟩ := by
  constructor
  · intro hmem
    obtain ⟨i, hi, hget⟩ := List.getElem_of_mem hmem
    have hlen : i < d.length := by
      have := hi
      rwa [buildNodes_length] at this
    refine ⟨i, hlen, ?_⟩
    have h1 : (buildNodes d 0)[i]? = some n := by
      rw [List.getElem?_eq_getElem hi, hget]
    rw [buildNodes_zero_getElem?, List.getElem?_eq_getElem hlen] at h1
    simpa using h1.symm
  · rintro ⟨i, hi, rfl⟩
    have h1 : (buildNodes d 0)[i]? =
        some ⟨d[i].1, cumW d i, cumW d (i + 1)⟩ := by
      rw [buildNodes_zero_getElem?, List.getElem?_eq_getElem hi]
      rfl
    exact List.getElem?_mem h1

/-- Containment determines the node: the shared uniqueness argument. -/
theorem buildNodes_containing_unique {α : Type} {d : List (α × ℚ)}
    (hw : ∀ kv ∈ d, 0 ≤ kv.2) {x : ℚ} {j : ℕ} (hj : j < d.length)
    (hj1 : cumW d j ≤ x) (hj2 : x < cumW d (j + 1)) :
    ∀ n₂ ∈ buildNodes d 0, n₂.lower ≤ x → x < n₂.upper →
      n₂ = ⟨d[j].1, cumW d j, cumW d (j + 1)⟩ := by
  intro n₂ hmem hl hu
  obtain ⟨i, hi, rfl⟩ := mem_buildNodes.mp hmem
  have hij : i = j := containing_eq hw hl hu hj1 hj2
  subst hij
  rfl

end Randvar

namespace Randvar

/-! ## Claims C3 and C4: the sampling index and `choice` -/

theorem mkRV_demoDist : mkRV demoDist = .ok demoRV := by
  norm_num [mkRV, demoDist, demoRV, weightSumOf, buildNodes]

theorem mkRV_demoDistZ : mkRV demoDistZ = .ok demoRVZ := by
  norm_num [mkRV, demoDistZ, demoRVZ, weightSumOf, buildNodes]

/-- C4: for a successfully constructed `RandomVariable` and every drawn
`x` with `0 ≤ x < weight_sum`, the binary search in `choice` terminates,
every index access into the sampling index stays in bounds, and it returns
the value of the unique interval satisfying `lower ≤ x < upper`, which is a
value of strictly positive weight in the support. -/
theorem choice_correct {α : Type} [DecidableEq α] {d : List (α × ℚ)}
    {r : RandomVariable α} {x : ℚ}
    (hnd : (d.map (fun kv => kv.1)).Nodup)
    (h : mkRV d = .ok r) (hx0 : 0 ≤ x) (hx : x < r.weight_sum) :
    ∃ node ∈ r.search,
      r.choice x = .found node.value ∧
      node.lower ≤ x ∧ x < node.upper ∧
      (∀ m ∈ r.search, m.lower ≤ x → x < m.upper → m = node) ∧
      node.value ∈ r.dist.map (fun kv => kv.1) ∧
      0 < weightOf r.dist node.value := by
  obtain ⟨hw, hz, hdist, hsum, hsearch⟩ := mkRV_ok h
  have hx2 : x < weightSumOf d := by rw [← hsum]; exact hx
  obtain ⟨j, hjlen, hj1, hj2⟩ := exists_containing hw hx0 hx2
  have hcs := cumW_succ hjlen
  have hwpos : 0 < d[j].2 := by linarith
  have hjmem : d[j] ∈ r.dist := by
    rw [hdist]
    refine List.mem_filter.mpr ⟨List.getElem_mem hjlen, ?_⟩
    simp [ne_of_gt hwpos]
  refine ⟨⟨d[j].1, cumW d j, cumW d (j + 1)⟩, ?_, ?_, hj1, hj2, ?_, ?_, ?_⟩
  · rw [hsearch]
    exact mem_buildNodes.mpr ⟨j, hjlen, rfl⟩
  · have hlen : r.search.length = d.length := by rw [hsearch, buildNodes_length]
    have hres := searchLoop_found hw hjlen hj1 hj2 (d.length + 1) 0 d.length
      (Nat.zero_le j) hjlen le_rfl (by omega)
    unfold RandomVariable.choice
    rw [hlen, hsearch]
    exact hres
  · intro m hm hl hu
    rw [hsearch] at hm
    exact buildNodes_containing_unique hw hjlen hj1 hj2 m hm hl hu
  · exact List.mem_map_of_mem (fun kv => kv.1) hjmem
  · have hv := mkRV_valid hnd h
    have hlk := lookupW_eq_some_of_nodup hv.nodup hjmem
    rw [weightOf, hlk]
    simpa using hwpos

theorem choice_correct_witness :
    ∃ node ∈ demoRV.search,
      demoRV.choice (3 / 2) = .found node.value ∧
      node.lower ≤ 3 / 2 ∧ (3 / 2 : ℚ) < node.upper ∧
      (∀ m ∈ demoRV.search, m.lower ≤ 3 / 2 → (3 / 2 : ℚ) < m.upper →
        m = node) ∧
      node.value ∈ demoRV.dist.map (fun kv => kv.1) ∧
      0 < weightOf demoRV.dist node.value :=
  choice_correct (d := demoDist) (by norm_num [demoDist]) mkRV_demoDist
    (by norm_num) (by norm_num [demoRV])

/-- C3 counterexample: on the input `{0: 1, 1: 0}` the constructor
succeeds with exactly one entry remaining after pruning, yet the sampling
index has TWO nodes, and the pruned zero-weight value `1` appears in it as
the empty interval `[1, 1)`. -/
theorem search_index_counterexample :
    (mkRV demoDistZ).map
        (fun r => (r.dist.length, r.search.length, r.search)) =
      .ok (1, 2, [⟨0, 0, 1⟩, ⟨1, 1, 1⟩]) := by
  norm_num [mkRV, demoDistZ, weightSumOf, buildNodes, Except.map]

/-- C3 (amended): the sampling index is an ordered list containing exactly
one `(value, lower, upper)` interval per entry of the ORIGINAL input
mapping — zero-weight entries included, appearing as empty intervals — in
the given iteration order, with `lower 0 = 0` and
`upper i = lower i + weight i`; the final upper bound is `weight_sum`, and
every draw `0 ≤ x < weight_sum` lies in exactly one interval. -/
theorem search_index_spec {α : Type} {d : List (α × ℚ)}
    {r : RandomVariable α} (h : mkRV d = .ok r) :
    r.search.length = d.length ∧
    (∀ i, ∀ hi : i < d.length,
      r.search[i]? = some ⟨d[i].1, cumW d i, cumW d (i + 1)⟩) ∧
    cumW d 0 = 0 ∧
    (∀ i, ∀ hi : i < d.length, cumW d (i + 1) = cumW d i + d[i].2) ∧
    cumW d d.length = r.weight_sum ∧
    (∀ x : ℚ, 0 ≤ x → x < r.weight_sum →
      ∃! node, node ∈ r.search ∧ node.lower ≤ x ∧ x < node.upper) := by
  obtain ⟨hw, hz, hdist, hsum, hsearch⟩ := mkRV_ok h
  refine ⟨?_, ?_, cumW_zero d, fun i hi => cumW_succ hi, ?_, ?_⟩
  · rw [hsearch, buildNodes_length]
  · intro i hi
    rw [hsearch, buildNodes_zero_getElem?, List.getElem?_eq_getElem hi]
    rfl
  · rw [hsum, cumW_length]
  · intro x hx0 hx
    have hx2 : x < weightSumOf d := by rw [← hsum]; exact hx
    obtain ⟨j, hjlen, hj1, hj2⟩ := exists_containing hw hx0 hx2
    refine ⟨⟨d[j].1, cumW d j, cumW d (j + 1)⟩, ⟨?_, hj1, hj2⟩, ?_⟩
    · rw [hsearch]
      exact mem_buildNodes.mpr ⟨j, hjlen, rfl⟩
    · rintro m ⟨hm, hl, hu⟩
      rw [hsearch] at hm
      exact buildNodes_containing_unique hw hjlen hj1 hj2 m hm hl hu

theorem search_index_spec_witness :
    demoRVZ.search.length = demoDistZ.length ∧
    (∀ i, ∀ hi : i < demoDistZ.length,
      demoRVZ.search[i]? =
        some ⟨demoDistZ[i].1, cumW demoDistZ i, cumW demoDistZ (i + 1)⟩) ∧
    cumW demoDistZ 0 = 0 ∧
    (∀ i, ∀ hi : i < demoDistZ.length,
      cumW demoDistZ (i + 1) = cumW demoDistZ i + demoDistZ[i].2) ∧
    cumW demoDistZ demoDistZ.length = demoRVZ.weight_sum ∧
    (∀ x : ℚ, 0 ≤ x → x < demoRVZ.weight_sum →
      ∃! node, node ∈ demoRVZ.search ∧ node.lower ≤ x ∧ x < node.upper) :=
  search_index_spec (d := demoDistZ) mkRV_demoDistZ

end Randvar

namespace Randvar

/-! ## Claim C2: constructor error taxonomy, and claim C8: round trip -/

/-- C2 (evaluation of the code at the failing inputs): the constructor
raises `ZeroDistributionError` on the empty mapping, and the
negative-weight check is the bare `assert` statement; `EmptyDistribution`
and `NegativeWeight` errors are never raised (the module defines no such
classes, although the package `__init__` and the tests import them). -/
theorem constructor_error_divergence :
    mkRV ([] : List (ℚ × ℚ)) = .error .zeroDistribution ∧
    mkRV [((0 : ℚ), -1)] = .error .assertNegativeWeight := by
  constructor
  · norm_num [mkRV, weightSumOf]
  · norm_num [mkRV, weightSumOf]

/-- Successful construction under explicit preconditions. -/
theorem mkRV_ok_of {α : Type} {d : List (α × ℚ)}
    (hw : ∀ kv ∈ d, 0 ≤ kv.2) (hz : weightSumOf d ≠ 0) :
    mkRV d = .ok { dist := d.filter (fun kv => kv.2 ≠ 0)
                 , weight_sum := weightSumOf d
                 , search := buildNodes d 0 } := by
  have hany : ¬(d.any (fun kv => kv.2 < 0) = true) := by
    simp only [List.any_eq_true, decide_eq_true_eq]
    push_neg
    exact hw
  unfold mkRV
  rw [if_neg hany, if_neg hz]

theorem sum_map_div (l : List ℚ) (c : ℚ) :
    (l.map (fun x => x / c)).sum = l.sum / c := by
  induction l with
  | nil => simp
  | cons a t ih => simp [ih, add_div]

theorem lookupW_map_weight {α : Type} [DecidableEq α] (d : List (α × ℚ))
    (t : ℚ → ℚ) (v : α) :
    lookupW (d.map (fun kv => (kv.1, t kv.2))) v = (lookupW d v).map t := by
  induction d with
  | nil => simp [lookupW]
  | cons a rest ih => by_cases h : a.1 = v <;> simp [lookupW, h, ih]

/-- C8: for every successfully constructed variable, feeding its
`(value, probability)` pairs back to the constructor as weights succeeds
and yields a distribution with the same support assigning every value the
same probability, exactly, in exact arithmetic. -/
theorem roundtrip {α : Type} [DecidableEq α] {r : RandomVariable α}
    (h : Valid r) :
    ∃ r₂, mkRV r.distPairs = .ok r₂ ∧
      r₂.dist.map (fun kv => kv.1) = r.dist.map (fun kv => kv.1) ∧
      ∀ v, r₂.prob v = r.prob v := by
  have hwsne : r.weight_sum ≠ 0 := ne_of_gt h.sum_pos
  have hpos : ∀ kv ∈ r.distPairs, 0 < kv.2 := by
    intro kv hkv
    rcases List.mem_map.mp hkv with ⟨kv₀, hkv₀, rfl⟩
    exact div_pos (h.pos kv₀ hkv₀) h.sum_pos
  have hsum : weightSumOf r.distPairs = 1 := by
    unfold weightSumOf RandomVariable.distPairs
    rw [List.map_map]
    have : ((fun kv : α × ℚ => kv.2) ∘ fun kv : α × ℚ =>
        (kv.1, kv.2 / r.weight_sum)) = fun kv : α × ℚ =>
        kv.2 / r.weight_sum := rfl
    rw [this]
    have h2 : (fun kv : α × ℚ => kv.2 / r.weight_sum) =
        (fun x : ℚ => x / r.weight_sum) ∘ fun kv : α × ℚ => kv.2 := rfl
    rw [h2, ← List.map_map, sum_map_div]
    rw [← weightSumOf, ← h.sum_eq]
    exact div_self hwsne
  have hok := mkRV_ok_of (fun kv hkv => le_of_lt (hpos kv hkv))
    (by rw [hsum]; norm_num)
  have hfilter : r.distPairs.filter (fun kv => kv.2 ≠ 0) = r.distPairs := by
    refine List.filter_eq_self.mpr ?_
    intro kv hkv
    simp [ne_of_gt (hpos kv hkv)]
  refine ⟨_, hok, ?_, ?_⟩
  · simp only [hfilter]
    unfold RandomVariable.distPairs
    rw [List.map_map]
    rfl
  · intro v
    unfold RandomVariable.prob
    simp only [hfilter, hsum]
    unfold RandomVariable.distPairs
    rw [lookupW_map_weight r.dist (fun x => x / r.weight_sum) v]
    cases hlk : lookupW r.dist v with
    | none => simp
    | some w => simp

theorem demoRV_valid : Valid demoRV := by
  refine ⟨?_, ?_, ?_, ?_⟩ <;> norm_num [demoRV, weightSumOf]

theorem roundtrip_witness :
    ∃ r₂, mkRV demoRV.distPairs = .ok r₂ ∧
      r₂.dist.map (fun kv => kv.1) = demoRV.dist.map (fun kv => kv.1) ∧
      ∀ v, r₂.prob v = demoRV.prob v :=
  roundtrip demoRV_valid

end Randvar

namespace Randvar

/-! ## Claim C10: `percentile(var, 1)` -/

theorem weightOf_eq_of_mem {α : Type} [DecidableEq α] {d : List (α × ℚ)}
    (hnd : (d.map (fun kv => kv.1)).Nodup) {kv : α × ℚ} (hkv : kv ∈ d) :
    weightOf d kv.1 = kv.2 := by
  rw [weightOf, lookupW_eq_some_of_nodup hnd hkv]
  rfl

theorem percentilePairs_nonneg {α : Type} [DecidableEq α] [LinearOrder α]
    {r : RandomVariable α} (h : Valid r) :
    ∀ kv ∈ (List.insertionSort (· ≤ ·) (r.dist.map (fun kv => kv.1))).map
      (fun v => (v, weightOf r.dist v)), 0 ≤ kv.2 := by
  intro kv hkv
  rcases List.mem_map.mp hkv with ⟨v, hv, rfl⟩
  have hv2 : v ∈ r.dist.map (fun kv => kv.1) :=
    (List.perm_insertionSort (· ≤ ·) (r.dist.map (fun kv => kv.1))).mem_iff.mp hv
  rcases List.mem_map.mp hv2 with ⟨kv₀, hkv₀, rfl⟩
  rw [weightOf_eq_of_mem h.nodup hkv₀]
  exact le_of_lt (h.pos kv₀ hkv₀)

theorem percentilePairs_sum {α : Type} [DecidableEq α] [LinearOrder α]
    {r : RandomVariable α} (h : Valid r) :
    weightSumOf ((List.insertionSort (· ≤ ·) (r.dist.map (fun kv => kv.1))).map
      (fun v => (v, weightOf r.dist v))) = r.weight_sum := by
  unfold weightSumOf
  rw [List.map_map]
  have hcomp : ((fun kv : α × ℚ => kv.2) ∘ fun v => (v, weightOf r.dist v)) =
      fun v => weightOf r.dist v := rfl
  rw [hcomp]
  have hperm : List.Perm
      ((List.insertionSort (· ≤ ·) (r.dist.map (fun kv => kv.1))).map
        (fun v => weightOf r.dist v))
      ((r.dist.map (fun kv => kv.1)).map (fun v => weightOf r.dist v)) :=
    (List.perm_insertionSort (· ≤ ·) (r.dist.map (fun kv => kv.1))).map _
  rw [hperm.sum_eq, List.map_map]
  have hcomp2 : ((fun v => weightOf r.dist v) ∘ fun kv : α × ℚ => kv.1) =
      fun kv : α × ℚ => weightOf r.dist kv.1 := rfl
  rw [hcomp2]
  have hcong : r.dist.map (fun kv => weightOf r.dist kv.1) =
      r.dist.map (fun kv => kv.2) :=
    List.map_congr_left (fun kv hkv => weightOf_eq_of_mem h.nodup hkv)
  rw [hcong, ← weightSumOf, ← h.sum_eq]

/-- C10: although `p = 1` is within the stated domain `0 ≤ p ≤ 1`, for
every constructed variable the call `percentile(var, 1)` never returns a
value: the target mass equals `weight_sum`, which lies in no cumulative
interval, so the binary search moves past the last node and fails with an
out-of-range index access. -/
theorem percentile_one_indexError {α : Type} [DecidableEq α] [LinearOrder α]
    {r : RandomVariable α} (h : Valid r) :
    percentile r 1 = .indexError := by
  unfold percentile percentileNodes
  have hw := percentilePairs_nonneg h
  have hsum := percentilePairs_sum h
  have hx : weightSumOf ((List.insertionSort (· ≤ ·)
      (r.dist.map (fun kv => kv.1))).map (fun v => (v, weightOf r.dist v))) ≤
      1 * r.weight_sum := by
    rw [hsum, one_mul]
  rw [buildNodes_length]
  exact searchLoop_off hw hx _ 0 (Nat.zero_le _) (by omega)

theorem percentile_one_indexError_witness :
    percentile demoRV 1 = .indexError :=
  percentile_one_indexError demoRV_valid

end Randvar

namespace Randvar

/-! ## Claim C5: `percentile` on `uniform(range(N))` -/

theorem lookupW_map_fn {α : Type} [DecidableEq α] (l : List α) (g : α → ℚ)
    {v : α} (hv : v ∈ l) :
    lookupW (l.map (fun u => (u, g u))) v = some (g v) := by
  induction l with
  | nil => cases hv
  | cons a t ih =>
    by_cases h : a = v
    · subst h
      simp [lookupW]
    · have hv2 : v ∈ t := by
        rcases List.mem_cons.mp hv with h1 | h1
        · exact absurd h1.symm h
        · exact h1
      simp [lookupW, h, ih hv2]

theorem weightSumOf_map_one {α : Type} (l : List α) :
    weightSumOf (l.map (fun v => (v, (1 : ℚ)))) = l.length := by
  unfold weightSumOf
  rw [List.map_map]
  have hcomp : ((fun kv : α × ℚ => kv.2) ∘ fun v => (v, (1 : ℚ))) =
      fun _ => (1 : ℚ) := rfl
  rw [hcomp, List.map_const', List.sum_replicate]
  simp

theorem cumW_map_one {α : Type} (l : List α) {j : ℕ} (hj : j ≤ l.length) :
    cumW (l.map (fun v => (v, (1 : ℚ)))) j = j := by
  unfold cumW
  rw [← List.map_take, List.map_map]
  have hcomp : ((fun kv : α × ℚ => kv.2) ∘ fun v => (v, (1 : ℚ))) =
      fun _ => (1 : ℚ) := rfl
  rw [hcomp, List.map_const', List.sum_replicate, List.length_take,
    Nat.min_eq_left hj]
  simp

/-- C5: `percentile` sorts the support ascending and resolves ties at
interval boundaries toward the upper value; consequently, on the uniform
distribution over `{0, ..., N-1}` the target mass `i/N` yields exactly
`i`, for every `N ≥ 1` and `0 ≤ i < N`. -/
theorem percentile_uniform {N i : ℕ} {u : RandomVariable ℕ} (hN : 1 ≤ N)
    (hi : i < N) (hu : uniform (List.range N) = .ok u) :
    percentile u ((i : ℚ) / (N : ℚ)) = .found i := by
  unfold uniform at hu
  have hNq : ((N : ℚ)) ≠ 0 := Nat.cast_ne_zero.mpr (by omega)
  obtain ⟨hw, hz, hdist, hsum, hsearch⟩ := mkRV_ok hu
  have hfilter : List.filter (fun kv => kv.2 ≠ 0)
      ((List.range N).map (fun v => (v, (1 : ℚ)))) =
      (List.range N).map (fun v => (v, (1 : ℚ))) := by
    refine List.filter_eq_self.mpr ?_
    intro kv hkv
    rcases List.mem_map.mp hkv with ⟨v, hv, rfl⟩
    norm_num
  rw [hfilter] at hdist
  have hkeys : u.dist.map (fun kv => kv.1) = List.range N := by
    rw [hdist, List.map_map]
    have hcomp : ((fun kv : ℕ × ℚ => kv.1) ∘ fun v => (v, (1 : ℚ))) = id := rfl
    rw [hcomp, List.map_id]
  have hins : List.insertionSort (· ≤ ·) (List.range N) = List.range N :=
    List.Sorted.insertionSort_eq (List.pairwise_le_range N)
  have hmapw : (List.range N).map (fun v => (v, weightOf u.dist v)) =
      (List.range N).map (fun v => (v, (1 : ℚ))) := by
    refine List.map_congr_left ?_
    intro v hv
    rw [hdist, weightOf, lookupW_map_fn (List.range N) (fun _ => (1 : ℚ)) hv]
    rfl
  have hsumN : u.weight_sum = (N : ℚ) := by
    rw [hsum, weightSumOf_map_one, List.length_range]
  have hlen : ((List.range N).map (fun v => (v, (1 : ℚ)))).length = N := by
    rw [List.length_map, List.length_range]
  have hwpos : ∀ kv ∈ (List.range N).map (fun v => (v, (1 : ℚ))), 0 ≤ kv.2 := by
    intro kv hkv
    rcases List.mem_map.mp hkv with ⟨v, hv, rfl⟩
    norm_num
  have hi2 : i < ((List.range N).map (fun v => (v, (1 : ℚ)))).length := by
    omega
  have hx1 : cumW ((List.range N).map (fun v => (v, (1 : ℚ)))) i ≤ (i : ℚ) :=
    le_of_eq (cumW_map_one (List.range N) (by rw [List.length_range]; omega))
  have hx2 : (i : ℚ) <
      cumW ((List.range N).map (fun v => (v, (1 : ℚ)))) (i + 1) := by
    rw [cumW_map_one (List.range N) (by rw [List.length_range]; omega)]
    exact_mod_cast Nat.lt_succ_self i
  have hfound := searchLoop_found hwpos hi2 hx1 hx2 (N + 1) 0 N
    (Nat.zero_le i) hi hlen.ge (by omega)
  unfold percentile percentileNodes
  rw [hkeys, hins, hmapw, hsumN, div_mul_cancel₀ _ hNq, buildNodes_length,
    hlen, hfound]
  simp

theorem percentile_uniform_witness :
    percentile
      (⟨[(0, 1), (1, 1), (2, 1), (3, 1)], 4,
        [⟨0, 0, 1⟩, ⟨1, 1, 2⟩, ⟨2, 2, 3⟩, ⟨3, 3, 4⟩]⟩ : RandomVariable ℕ)
      ((2 : ℚ) / (4 : ℚ)) = .found 2 :=
  percentile_uniform (by norm_num) (by norm_num)
    (by norm_num [uniform, mkRV, weightSumOf, buildNodes,
      List.range_succ, List.range_zero])

end Randvar

namespace Randvar

/-! ## Claim C7: `mode` -/

/-- C7: `mode(var, 1)` returns a value of maximal probability;
`mode(var, k)` returns the value with the k-th highest probability (its
probability is entry `k-1` of any descending arrangement of the support
probabilities); and as `k` ranges over `1..size` the returned values are
exactly the stable descending ordering of the support — a duplicate-free
permutation of it, so every supported value is visited exactly once, under
the deterministic stable tie-break. -/
theorem mode_spec {α : Type} [DecidableEq α] {r : RandomVariable α}
    (h : Valid r) :
    ((List.range r.dist.length).map (fun j => mode r (j + 1))) =
      (modeOrder r).map some ∧
    List.Perm (modeOrder r) (r.dist.map (fun kv => kv.1)) ∧
    (modeOrder r).Nodup ∧
    List.Sorted (· ≥ ·) ((modeOrder r).map r.prob) ∧
    (∀ v, mode r 1 = some v → ∀ u ∈ r.dist.map (fun kv => kv.1),
      r.prob u ≤ r.prob v) ∧
    (∀ k, 1 ≤ k → k ≤ r.dist.length →
      ∀ ps : List ℚ,
        List.Perm ps ((r.dist.map (fun kv => kv.1)).map r.prob) →
        List.Sorted (· ≥ ·) ps →
        ∃ v, mode r k = some v ∧ ps[k - 1]? = some (r.prob v)) := by
  haveI hT : IsTotal α (fun a b => r.prob b ≤ r.prob a) :=
    ⟨fun a b => le_total (r.prob b) (r.prob a)⟩
  haveI hTr : IsTrans α (fun a b => r.prob b ≤ r.prob a) :=
    ⟨fun a b c h1 h2 => le_trans h2 h1⟩
  have hperm : List.Perm (modeOrder r) (r.dist.map (fun kv => kv.1)) :=
    List.perm_insertionSort _ _
  have hsorted : List.Sorted (fun a b => r.prob b ≤ r.prob a) (modeOrder r) :=
    List.sorted_insertionSort _ _
  have hlen : (modeOrder r).length = r.dist.length := by
    unfold modeOrder
    rw [List.length_insertionSort, List.length_map]
  have hmapsorted : List.Sorted (· ≥ ·) ((modeOrder r).map r.prob) :=
    List.Pairwise.map r.prob (fun a b hab => hab) hsorted
  have hnodup : (modeOrder r).Nodup := hperm.nodup_iff.mpr h.nodup
  refine ⟨?_, hperm, hnodup, hmapsorted, ?_, ?_⟩
  · refine List.ext_getElem ?_ ?_
    · rw [List.length_map, List.length_range, List.length_map, hlen]
    · intro j h1 h2
      have hj : j < (modeOrder r).length := by
        rw [List.length_map] at h2
        exact h2
      rw [List.getElem_map, List.getElem_range, List.getElem_map]
      unfold mode
      have hj1 : j + 1 - 1 = j := rfl
      rw [hj1, List.getElem?_eq_getElem hj]
  · intro v hv u hu
    have humem : u ∈ modeOrder r := hperm.mem_iff.mpr hu
    unfold mode at hv
    cases hmo : modeOrder r with
    | nil =>
      rw [hmo] at hv
      simp at hv
    | cons a tl =>
      rw [hmo] at hv
      obtain rfl : a = v := by simpa using hv
      rw [hmo] at hsorted humem
      rcases List.mem_cons.mp humem with rfl | hmem2
      · exact le_refl _
      · exact (List.sorted_cons.mp hsorted).1 u hmem2
  · intro k hk1 hk2 ps hpsperm hpssorted
    haveI : IsAntisymm ℚ (· ≥ ·) := ⟨fun a b h1 h2 => le_antisymm h2 h1⟩
    have hps : ps = (modeOrder r).map r.prob := by
      refine List.eq_of_perm_of_sorted ?_ hpssorted hmapsorted
      exact hpsperm.trans (hperm.map r.prob).symm
    have hklen : k - 1 < (modeOrder r).length := by omega
    refine ⟨(modeOrder r)[k - 1], ?_, ?_⟩
    · unfold mode
      rw [List.getElem?_eq_getElem hklen]
    · rw [hps]
      have hklen2 : k - 1 < ((modeOrder r).map r.prob).length := by
        rw [List.length_map]
        exact hklen
      rw [List.getElem?_eq_getElem hklen2, List.getElem_map]

theorem mode_spec_witness :
    ((List.range demoRV.dist.length).map (fun j => mode demoRV (j + 1))) =
      (modeOrder demoRV).map some ∧
    List.Perm (modeOrder demoRV) (demoRV.dist.map (fun kv => kv.1)) ∧
    (modeOrder demoRV).Nodup ∧
    List.Sorted (· ≥ ·) ((modeOrder demoRV).map demoRV.prob) ∧
    (∀ v, mode demoRV 1 = some v →
      ∀ u ∈ demoRV.dist.map (fun kv => kv.1),
        demoRV.prob u ≤ demoRV.prob v) ∧
    (∀ k, 1 ≤ k → k ≤ demoRV.dist.length →
      ∀ ps : List ℚ,
        List.Perm ps ((demoRV.dist.map (fun kv => kv.1)).map demoRV.prob) →
        List.Sorted (· ≥ ·) ps →
        ∃ v, mode demoRV k = some v ∧ ps[k - 1]? = some (demoRV.prob v)) :=
  mode_spec demoRV_valid

end Randvar

namespace Randvar

/-! ## Lemmas on the combination enumeration of `rand_apply` -/

theorem comboWeight_eq_prod {α : Type} (c : List (α × ℚ) × List (α × ℚ)) :
    comboWeight c =
      (c.1.map (fun kv => kv.2)).prod * (c.2.map (fun kv => kv.2)).prod := by
  rw [comboWeight, ← List.prod_eq_foldl, List.prod_append]

theorem mem_listProd {α : Type} {ls : List (List α)} {c : List α} :
    c ∈ listProd ls ↔ List.Forall₂ (fun x l => x ∈ l) c ls := by
  induction ls generalizing c with
  | nil =>
    simp only [listProd, List.mem_singleton, List.forall₂_nil_right_iff]
  | cons l ls ih =>
    simp only [listProd, List.mem_flatMap, List.mem_map,
      List.forall₂_cons_right_iff]
    constructor
    · rintro ⟨x, hx, c₂, hc₂, rfl⟩
      exact ⟨x, c₂, hx, ih.mp hc₂, rfl⟩
    · rintro ⟨x, c₂, hx, hc₂, rfl⟩
      exact ⟨x, hx, c₂, ih.mpr hc₂, rfl⟩

theorem forall₂_mem_left {α : Type} {c : List α} {ls : List (List α)}
    (h : List.Forall₂ (fun x l => x ∈ l) c ls) :
    ∀ x ∈ c, ∃ l ∈ ls, x ∈ l := by
  induction h with
  | nil =>
    intro x hx
    cases hx
  | cons hxl hrest ih =>
    intro x hx
    rcases List.mem_cons.mp hx with rfl | hx2
    · exact ⟨_, List.mem_cons_self _ _, hxl⟩
    · rcases ih x hx2 with ⟨l, hl, hxl2⟩
      exact ⟨l, List.mem_cons_of_mem _ hl, hxl2⟩

theorem length_of_mem_listProd {α : Type} {ls : List (List α)} {c : List α}
    (h : c ∈ listProd ls) : c.length = ls.length :=
  (mem_listProd.mp h).length_eq

theorem prodW_pos_of_mem_listProd {α : Type} {ls : List (List (α × ℚ))}
    (hpos : ∀ l ∈ ls, ∀ kv ∈ l, 0 < kv.2) {c : List (α × ℚ)}
    (hc : c ∈ listProd ls) : 0 < (c.map (fun kv => kv.2)).prod := by
  refine List.prod_pos ?_
  intro q hq
  rcases List.mem_map.mp hq with ⟨kv, hkv, rfl⟩
  rcases forall₂_mem_left (mem_listProd.mp hc) kv hkv with ⟨l, hl, hkvl⟩
  exact hpos l hl kv hkvl

theorem sum_map_mul_of_listProd {α : Type} (ls : List (List (α × ℚ))) :
    ((listProd ls).map (fun c => (c.map (fun kv => kv.2)).prod)).sum =
      (ls.map (fun l => (l.map (fun kv => kv.2)).sum)).prod := by
  induction ls with
  | nil => simp [listProd]
  | cons l ls ih =>
    simp only [listProd, List.map_cons, List.prod_cons]
    induction l with
    | nil => simp
    | cons a t iht =>
      simp only [List.flatMap_cons, List.map_append, List.sum_append,
        List.map_map, List.map_cons, List.sum_cons] at iht ⊢
      rw [iht]
      have hhead : ((listProd ls).map
          ((fun c => (c.map (fun kv => kv.2)).prod) ∘ fun c => a :: c)).sum =
          a.2 * ((listProd ls).map
            (fun c => (c.map (fun kv => kv.2)).prod)).sum := by
        rw [← List.sum_map_mul_left]
        refine congrArg List.sum ?_
        refine List.map_congr_left ?_
        intro c _
        simp [List.prod_cons]
      rw [hhead, ih]
      ring

theorem mem_comboList {α : Type} {A K : List (List (α × ℚ))}
    {c : List (α × ℚ) × List (α × ℚ)} :
    c ∈ comboList A K ↔ c.1 ∈ listProd A ∧ c.2 ∈ listProd K := by
  unfold comboList
  simp only [List.mem_flatMap, List.mem_map]
  constructor
  · rintro ⟨ac, hac, kc, hkc, rfl⟩
    exact ⟨hac, hkc⟩
  · rintro ⟨h1, h2⟩
    exact ⟨c.1, h1, c.2, h2, rfl⟩

theorem comboList_weight_sum {α : Type} (A K : List (List (α × ℚ))) :
    ((comboList A K).map comboWeight).sum =
      ((listProd A).map (fun c => (c.map (fun kv => kv.2)).prod)).sum *
      ((listProd K).map (fun c => (c.map (fun kv => kv.2)).prod)).sum := by
  unfold comboList
  induction listProd A with
  | nil => simp
  | cons ac t ih =>
    simp only [List.flatMap_cons, List.map_append, List.sum_append,
      List.map_cons, List.sum_cons, List.map_map] at ih ⊢
    rw [ih]
    have hhead : ((listProd K).map (comboWeight ∘ fun kc => (ac, kc))).sum =
        (ac.map (fun kv => kv.2)).prod *
        ((listProd K).map (fun c => (c.map (fun kv => kv.2)).prod)).sum := by
      rw [← List.sum_map_mul_left]
      refine congrArg List.sum ?_
      refine List.map_congr_left ?_
      intro kc _
      simp [Function.comp, comboWeight_eq_prod]
    rw [hhead]
    ring

end Randvar

namespace Randvar

/-! ## Lemmas on the dictionary accumulation of `rand_apply` -/

theorem lookupW_append {β : Type} [DecidableEq β] (d₁ d₂ : List (β × ℚ))
    (u : β) :
    lookupW (d₁ ++ d₂) u =
      match lookupW d₁ u with
      | some w => some w
      | none => lookupW d₂ u := by
  induction d₁ with
  | nil => simp [lookupW]
  | cons a rest ih =>
    by_cases h : a.1 = u <;> simp [lookupW, h, ih]

theorem lookupW_update {β : Type} [DecidableEq β] (d : List (β × ℚ)) (v : β)
    (p : ℚ) (u : β) :
    lookupW (d.map (fun kv => if kv.1 = v then (kv.1, kv.2 + p) else kv)) u =
      (lookupW d u).map (fun w => if u = v then w + p else w) := by
  induction d with
  | nil => simp [lookupW]
  | cons a rest ih =>
    simp only [List.map_cons, lookupW]
    have hkey : (if a.1 = v then (a.1, a.2 + p) else a).1 = a.1 := by
      by_cases hav : a.1 = v <;> simp [hav]
    rw [hkey]
    by_cases hau : a.1 = u
    · rw [if_pos hau, if_pos hau]
      subst hau
      by_cases hav : a.1 = v <;> simp [hav]
    · rw [if_neg hau, if_neg hau, ih]

theorem addWeight_nodup {β : Type} [DecidableEq β] {d : List (β × ℚ)}
    (h : (d.map (fun kv => kv.1)).Nodup) (v : β) (p : ℚ) :
    ((addWeight d v p).map (fun kv => kv.1)).Nodup := by
  unfold addWeight
  by_cases hs : (lookupW d v).isSome
  · rw [if_pos hs]
    have hkeys : (d.map (fun kv =>
        if kv.1 = v then (kv.1, kv.2 + p) else kv)).map (fun kv => kv.1) =
        d.map (fun kv => kv.1) := by
      rw [List.map_map]
      refine List.map_congr_left ?_
      intro kv _
      by_cases h2 : kv.1 = v <;> simp [h2]
    rw [hkeys]
    exact h
  · rw [if_neg hs]
    have hnot : v ∉ d.map (fun kv => kv.1) := by
      refine lookupW_eq_none_iff.mp ?_
      cases hlk : lookupW d v
      · rfl
      · rw [hlk] at hs
        simp at hs
    rw [List.map_append]
    simp [List.nodup_append, h, hnot]

theorem weightOf_addWeight {β : Type} [DecidableEq β] {d : List (β × ℚ)}
    (_hnd : (d.map (fun kv => kv.1)).Nodup) (v : β) (p : ℚ) (u : β) :
    weightOf (addWeight d v p) u =
      weightOf d u + (if u = v then p else 0) := by
  unfold addWeight
  by_cases hs : (lookupW d v).isSome
  · rw [if_pos hs]
    rw [weightOf, lookupW_update]
    cases hlk : lookupW d u with
    | none =>
      by_cases huv : u = v
      · subst huv
        rw [hlk] at hs
        simp at hs
      · simp [weightOf, hlk, huv]
    | some w =>
      by_cases huv : u = v
      · subst huv
        simp [weightOf, hlk]
      · simp [weightOf, hlk, huv]
  · rw [if_neg hs]
    rw [weightOf, lookupW_append]
    cases hlk : lookupW d u with
    | none =>
      by_cases huv : u = v
      · subst huv
        simp [weightOf, hlk, lookupW]
      · simp [weightOf, hlk, lookupW, huv, Ne.symm huv]
    | some w =>
      by_cases huv : u = v
      · subst huv
        rw [hlk] at hs
        simp at hs
      · simp [weightOf, hlk, huv]

theorem weightSumOf_addWeight {β : Type} [DecidableEq β] {d : List (β × ℚ)}
    (hnd : (d.map (fun kv => kv.1)).Nodup) (v : β) (p : ℚ) :
    weightSumOf (addWeight d v p) = weightSumOf d + p := by
  unfold addWeight
  by_cases hs : (lookupW d v).isSome
  · rw [if_pos hs]
    induction d with
    | nil => simp [lookupW] at hs
    | cons a rest ih =>
      simp only [List.map_cons, List.nodup_cons] at hnd
      by_cases hav : a.1 = v
      · have hrest : rest.map (fun kv =>
            if kv.1 = v then (kv.1, kv.2 + p) else kv) = rest := by
          have h1 : rest.map (fun kv =>
              if kv.1 = v then (kv.1, kv.2 + p) else kv) = rest.map id := by
            refine List.map_congr_left ?_
            intro kv hkv
            have hne : kv.1 ≠ v := by
              intro he
              exact hnd.1 (by
                rw [hav, ← he]
                exact List.mem_map_of_mem (fun kv => kv.1) hkv)
            simp [hne]
          rw [h1, List.map_id]
        simp only [List.map_cons, if_pos hav, hrest, weightSumOf,
          List.map_cons, List.sum_cons]
        ring
      · have hs2 : (lookupW rest v).isSome := by
          rw [lookupW, if_neg hav] at hs
          exact hs
        have ih2 := ih hnd.2 hs2
        simp only [weightSumOf] at ih2 ⊢
        simp only [List.map_cons, if_neg hav, List.sum_cons]
        rw [ih2]
        ring
  · rw [if_neg hs]
    simp [weightSumOf, List.map_append, List.sum_append]

theorem addWeight_pos {β : Type} [DecidableEq β] {d : List (β × ℚ)}
    (h : ∀ kv ∈ d, 0 < kv.2) {v : β} {p : ℚ} (hp : 0 < p) :
    ∀ kv ∈ addWeight d v p, 0 < kv.2 := by
  unfold addWeight
  by_cases hs : (lookupW d v).isSome
  · rw [if_pos hs]
    intro kv hkv
    rcases List.mem_map.mp hkv with ⟨kv₀, hkv₀, rfl⟩
    by_cases h2 : kv₀.1 = v
    · simp only [if_pos h2]
      have := h kv₀ hkv₀
      positivity
    · simp only [if_neg h2]
      exact h kv₀ hkv₀
  · rw [if_neg hs]
    intro kv hkv
    rcases List.mem_append.mp hkv with h1 | h1
    · exact h kv h1
    · rcases List.mem_singleton.mp h1 with rfl
      exact hp

theorem accumApply_pureFn {α β : Type} [DecidableEq β]
    (f : List α → List (String × α) → β) (names : List String) :
    ∀ (cs : List (List (α × ℚ) × List (α × ℚ))) (acc : List (β × ℚ)),
      accumApply (pureFn f) names cs acc = .ok (accumPure f names cs acc) := by
  intro cs
  induction cs with
  | nil =>
    intro acc
    rfl
  | cons c rest ih =>
    intro acc
    by_cases hpos : 0 < comboWeight c
    · simp only [accumApply, accumPure, if_pos hpos]
      have hcall : comboCall (pureFn f) names c =
          .ok (comboOutput f names c) := rfl
      rw [hcall]
      exact ih _
    · simp only [accumApply, accumPure, if_neg hpos]
      exact ih _

end Randvar

namespace Randvar

theorem accumPure_nodup {α β : Type} [DecidableEq β]
    (f : List α → List (String × α) → β) (names : List String) :
    ∀ (cs : List (List (α × ℚ) × List (α × ℚ))) (acc : List (β × ℚ)),
      (acc.map (fun kv => kv.1)).Nodup →
      ((accumPure f names cs acc).map (fun kv => kv.1)).Nodup := by
  intro cs
  induction cs with
  | nil =>
    intro acc h
    exact h
  | cons c rest ih =>
    intro acc h
    by_cases hpos : 0 < comboWeight c
    · simp only [accumPure, if_pos hpos]
      exact ih _ (addWeight_nodup h _ _)
    · simp only [accumPure, if_neg hpos]
      exact ih _ h

theorem accumPure_pos {α β : Type} [DecidableEq β]
    (f : List α → List (String × α) → β) (names : List String) :
    ∀ (cs : List (List (α × ℚ) × List (α × ℚ))) (acc : List (β × ℚ)),
      (∀ kv ∈ acc, 0 < kv.2) →
      ∀ kv ∈ accumPure f names cs acc, 0 < kv.2 := by
  intro cs
  induction cs with
  | nil =>
    intro acc h
    exact h
  | cons c rest ih =>
    intro acc h
    by_cases hpos : 0 < comboWeight c
    · simp only [accumPure, if_pos hpos]
      exact ih _ (addWeight_pos h hpos)
    · simp only [accumPure, if_neg hpos]
      exact ih _ h

theorem accumPure_weightOf {α β : Type} [DecidableEq β]
    (f : List α → List (String × α) → β) (names : List String) :
    ∀ (cs : List (List (α × ℚ) × List (α × ℚ))) (acc : List (β × ℚ)),
      (acc.map (fun kv => kv.1)).Nodup →
      ∀ v : β, weightOf (accumPure f names cs acc) v =
        weightOf acc v +
        (cs.map (fun c =>
          if 0 < comboWeight c ∧ comboOutput f names c = v
          then comboWeight c else 0)).sum := by
  intro cs
  induction cs with
  | nil =>
    intro acc h v
    simp [accumPure]
  | cons c rest ih =>
    intro acc h v
    by_cases hpos : 0 < comboWeight c
    · simp only [accumPure, if_pos hpos]
      rw [ih _ (addWeight_nodup h _ _) v,
        weightOf_addWeight h (comboOutput f names c) (comboWeight c) v]
      simp only [List.map_cons, List.sum_cons]
      by_cases hout : comboOutput f names c = v
      · rw [if_pos (show 0 < comboWeight c ∧ comboOutput f names c = v from
            ⟨hpos, hout⟩),
          if_pos (show v = comboOutput f names c from hout.symm)]
        ring
      · rw [if_neg (show ¬(0 < comboWeight c ∧ comboOutput f names c = v)
            from fun hc => hout hc.2),
          if_neg (show ¬v = comboOutput f names c from
            fun hc => hout hc.symm)]
        ring
    · simp only [accumPure, if_neg hpos]
      rw [ih _ h v]
      simp only [List.map_cons, List.sum_cons]
      rw [if_neg (show ¬(0 < comboWeight c ∧ comboOutput f names c = v)
        from fun hc => hpos hc.1)]
      ring

theorem accumPure_weightSum {α β : Type} [DecidableEq β]
    (f : List α → List (String × α) → β) (names : List String) :
    ∀ (cs : List (List (α × ℚ) × List (α × ℚ))) (acc : List (β × ℚ)),
      (acc.map (fun kv => kv.1)).Nodup →
      weightSumOf (accumPure f names cs acc) =
        weightSumOf acc +
        (cs.map (fun c =>
          if 0 < comboWeight c then comboWeight c else 0)).sum := by
  intro cs
  induction cs with
  | nil =>
    intro acc h
    simp [accumPure]
  | cons c rest ih =>
    intro acc h
    by_cases hpos : 0 < comboWeight c
    · simp only [accumPure, if_pos hpos]
      rw [ih _ (addWeight_nodup h _ _),
        weightSumOf_addWeight h (comboOutput f names c) (comboWeight c)]
      simp only [List.map_cons, List.sum_cons, if_pos hpos]
      ring
    · simp only [accumPure, if_neg hpos]
      rw [ih _ h]
      simp only [List.map_cons, List.sum_cons, if_neg hpos]
      ring

theorem prob_eq_weightOf {α : Type} [DecidableEq α] (r : RandomVariable α)
    (v : α) : r.prob v = weightOf r.dist v / r.weight_sum := by
  unfold RandomVariable.prob weightOf
  cases lookupW r.dist v <;> simp

theorem sum_map_filter_eq {γ : Type} (l : List γ) (p : γ → Prop)
    [DecidablePred p] (g : γ → ℚ) :
    ((l.filter (fun a => p a)).map g).sum =
      (l.map (fun a => if p a then g a else 0)).sum := by
  induction l with
  | nil => rfl
  | cons a t ih =>
    by_cases h : p a <;> simp [List.filter_cons, h, ih]

theorem zip_div_prod {α : Type} :
    ∀ (L : List (α × ℚ)) (S : List ℚ), L.length = S.length →
      ((L.zip S).map (fun p => p.1.2 / p.2)).prod =
        (L.map (fun kv => kv.2)).prod / S.prod
  | [], [], _ => by simp
  | [], s :: S, h => by simp at h
  | a :: L, [], h => by simp at h
  | a :: L, s :: S, h => by
    have hlen : L.length = S.length := by simpa using h
    simp only [List.zip_cons_cons, List.map_cons, List.prod_cons,
      zip_div_prod L S hlen]
    rw [div_mul_div_comm]

end Randvar

namespace Randvar

/-! ## Claim C1: the pushforward computed by `rand_apply` -/

theorem ArgValid_toRV {α : Type} {a : Arg α} (h : ArgValid a) :
    Valid a.toRV := by
  cases a with
  | rv x => exact h
  | const c => exact constRV_valid c

theorem argDists_pos {α : Type} {args : List (Arg α)}
    (hargs : ∀ a ∈ args, ArgValid a) :
    ∀ l ∈ (args.map Arg.toRV).map (fun x => x.dist), ∀ kv ∈ l, 0 < kv.2 := by
  intro l hl
  rcases List.mem_map.mp hl with ⟨r, hr, rfl⟩
  rcases List.mem_map.mp hr with ⟨a, ha, rfl⟩
  exact (ArgValid_toRV (hargs a ha)).pos

theorem kwargDists_pos {α : Type} {kwargs : List (String × Arg α)}
    (hkw : ∀ nk ∈ kwargs, ArgValid nk.2) :
    ∀ l ∈ (kwargs.map (fun nk => nk.2.toRV)).map (fun x => x.dist),
      ∀ kv ∈ l, 0 < kv.2 := by
  intro l hl
  rcases List.mem_map.mp hl with ⟨r, hr, rfl⟩
  rcases List.mem_map.mp hr with ⟨nk, hnk, rfl⟩
  exact (ArgValid_toRV (hkw nk hnk)).pos

/-- Every enumerated combination of valid arguments has positive joint
weight (the stored weights are pruned of zeros). -/
theorem comboList_pos {α : Type} {args : List (Arg α)}
    {kwargs : List (String × Arg α)}
    (hargs : ∀ a ∈ args, ArgValid a) (hkw : ∀ nk ∈ kwargs, ArgValid nk.2) :
    ∀ c ∈ comboList ((args.map Arg.toRV).map (fun x => x.dist))
        ((kwargs.map (fun nk => nk.2.toRV)).map (fun x => x.dist)),
      0 < comboWeight c := by
  intro c hc
  rcases mem_comboList.mp hc with ⟨h1, h2⟩
  rw [comboWeight_eq_prod]
  exact mul_pos (prodW_pos_of_mem_listProd (argDists_pos hargs) h1)
    (prodW_pos_of_mem_listProd (kwargDists_pos hkw) h2)

theorem argWeightSums_pos {α : Type} {args : List (Arg α)}
    {kwargs : List (String × Arg α)}
    (hargs : ∀ a ∈ args, ArgValid a) (hkw : ∀ nk ∈ kwargs, ArgValid nk.2) :
    0 < (argWeightSums args kwargs).prod := by
  refine List.prod_pos ?_
  intro s hs
  rcases List.mem_append.mp hs with h1 | h1
  · rcases List.mem_map.mp h1 with ⟨a, ha, rfl⟩
    exact (ArgValid_toRV (hargs a ha)).sum_pos
  · rcases List.mem_map.mp h1 with ⟨nk, hnk, rfl⟩
    exact (ArgValid_toRV (hkw nk hnk)).sum_pos

/-- The totals lemma: one pass of `accumPure` over all combinations of
valid arguments accumulates total weight equal to the product of the
per-argument weight sums. -/
theorem sum_listProd_args {α : Type} (args : List (Arg α))
    (hargs : ∀ a ∈ args, ArgValid a) :
    ((listProd ((args.map Arg.toRV).map (fun x => x.dist))).map
      (fun c => (c.map (fun kv => kv.2)).prod)).sum =
      (args.map (fun a => a.toRV.weight_sum)).prod := by
  rw [sum_map_mul_of_listProd]
  refine congrArg List.prod ?_
  rw [List.map_map, List.map_map]
  refine List.map_congr_left ?_
  intro a ha
  have hv := ArgValid_toRV (hargs a ha)
  simpa [weightSumOf] using hv.sum_eq.symm

theorem sum_listProd_kwargs {α : Type} (kwargs : List (String × Arg α))
    (hkw : ∀ nk ∈ kwargs, ArgValid nk.2) :
    ((listProd ((kwargs.map (fun nk => nk.2.toRV)).map
        (fun x => x.dist))).map
      (fun c => (c.map (fun kv => kv.2)).prod)).sum =
      (kwargs.map (fun nk => nk.2.toRV.weight_sum)).prod := by
  rw [sum_map_mul_of_listProd]
  refine congrArg List.prod ?_
  rw [List.map_map, List.map_map]
  refine List.map_congr_left ?_
  intro nk hnk
  have hv := ArgValid_toRV (hkw nk hnk)
  simpa [weightSumOf] using hv.sum_eq.symm

theorem accumPure_total {α β : Type} [DecidableEq β]
    (f : List α → List (String × α) → β)
    (args : List (Arg α)) (kwargs : List (String × Arg α))
    (hargs : ∀ a ∈ args, ArgValid a) (hkw : ∀ nk ∈ kwargs, ArgValid nk.2) :
    weightSumOf (accumPure f (kwargs.map (fun nk => nk.1))
      (comboList ((args.map Arg.toRV).map (fun x => x.dist))
        ((kwargs.map (fun nk => nk.2.toRV)).map (fun x => x.dist))) []) =
      (argWeightSums args kwargs).prod := by
  rw [accumPure_weightSum f _ _ [] (by simp)]
  have h0 : weightSumOf ([] : List (β × ℚ)) = 0 := rfl
  rw [h0, zero_add]
  rw [show ((comboList ((args.map Arg.toRV).map (fun x => x.dist))
        ((kwargs.map (fun nk => nk.2.toRV)).map (fun x => x.dist))).map
      (fun c => if 0 < comboWeight c then comboWeight c else 0)) =
      ((comboList ((args.map Arg.toRV).map (fun x => x.dist))
        ((kwargs.map (fun nk => nk.2.toRV)).map (fun x => x.dist))).map
        comboWeight) from
    List.map_congr_left (fun c hc => if_pos (comboList_pos hargs hkw c hc))]
  rw [comboList_weight_sum, sum_listProd_args args hargs,
    sum_listProd_kwargs kwargs hkw, argWeightSums, List.prod_append]

/-- The successful path of `rand_apply` on a pure lifted function. -/
theorem rand_apply_pure_ok {α β : Type} [DecidableEq β]
    (f : List α → List (String × α) → β)
    (args : List (Arg α)) (kwargs : List (String × Arg α))
    (hz : weightSumOf (accumPure f (kwargs.map (fun nk => nk.1))
      (comboList ((args.map Arg.toRV).map (fun x => x.dist))
        ((kwargs.map (fun nk => nk.2.toRV)).map (fun x => x.dist))) []) ≠ 0) :
    rand_apply (pureFn f) args kwargs =
      .ok ⟨accumPure f (kwargs.map (fun nk => nk.1))
            (comboList ((args.map Arg.toRV).map (fun x => x.dist))
              ((kwargs.map (fun nk => nk.2.toRV)).map (fun x => x.dist))) [],
          weightSumOf (accumPure f (kwargs.map (fun nk => nk.1))
            (comboList ((args.map Arg.toRV).map (fun x => x.dist))
              ((kwargs.map (fun nk => nk.2.toRV)).map (fun x => x.dist))) []),
          buildNodes (accumPure f (kwargs.map (fun nk => nk.1))
            (comboList ((args.map Arg.toRV).map (fun x => x.dist))
              ((kwargs.map (fun nk => nk.2.toRV)).map (fun x => x.dist))) [])
            0⟩ := by
  have hpos : ∀ kv ∈ accumPure f (kwargs.map (fun nk => nk.1))
      (comboList ((args.map Arg.toRV).map (fun x => x.dist))
        ((kwargs.map (fun nk => nk.2.toRV)).map (fun x => x.dist))) [],
      0 < kv.2 := accumPure_pos f _ _ [] (by simp)
  have hfil : (accumPure f (kwargs.map (fun nk => nk.1))
      (comboList ((args.map Arg.toRV).map (fun x => x.dist))
        ((kwargs.map (fun nk => nk.2.toRV)).map (fun x => x.dist))) []).filter
      (fun kv => kv.2 ≠ 0) =
      accumPure f (kwargs.map (fun nk => nk.1))
        (comboList ((args.map Arg.toRV).map (fun x => x.dist))
          ((kwargs.map (fun nk => nk.2.toRV)).map (fun x => x.dist))) [] :=
    List.filter_eq_self.mpr
      (fun kv hkv => by simp [ne_of_gt (hpos kv hkv)])
  unfold rand_apply
  simp only [accumApply_pureFn]
  rw [mkRV_ok_of (fun kv hkv => le_of_lt (hpos kv hkv)) hz, hfil]

/-- C1: for every deterministic function `f` and every argument list of
positional and named arguments, each either a `RandomVariable` or a
constant (constants becoming one-point distributions of weight `1` via
`Arg.toRV`), `rand_apply` succeeds and the probability of each output
value `v` in the result equals the sum, over all enumerated combinations
whose image under `f` is `v`, of the product of the per-argument
probabilities; weights of colliding outputs are summed, and with zero
arguments the enumeration is the single empty combination of joint
probability `1`, giving the one-point distribution at `f()`. -/
theorem rand_apply_pushforward {α β : Type} [DecidableEq β]
    (f : List α → List (String × α) → β)
    (args : List (Arg α)) (kwargs : List (String × Arg α))
    (hargs : ∀ a ∈ args, ArgValid a)
    (hkw : ∀ nk ∈ kwargs, ArgValid nk.2) :
    ∃ out, rand_apply (pureFn f) args kwargs = .ok out ∧
      ∀ v : β, out.prob v =
        (((comboList ((args.map Arg.toRV).map (fun x => x.dist))
              ((kwargs.map (fun nk => nk.2.toRV)).map (fun x => x.dist))).filter
            (fun c => comboOutput f (kwargs.map (fun nk => nk.1)) c = v)).map
          (jointProbability (argWeightSums args kwargs))).sum := by
  have hcpos : ∀ c ∈ comboList ((args.map Arg.toRV).map (fun x => x.dist))
      ((kwargs.map (fun nk => nk.2.toRV)).map (fun x => x.dist)),
      0 < comboWeight c := comboList_pos hargs hkw
  have hP := accumPure_total f args kwargs hargs hkw
  have hPpos := argWeightSums_pos hargs hkw
  refine ⟨_, rand_apply_pure_ok f args kwargs
    (by rw [hP]; exact ne_of_gt hPpos), ?_⟩
  intro v
  rw [prob_eq_weightOf]
  show weightOf (accumPure f (kwargs.map (fun nk => nk.1))
      (comboList ((args.map Arg.toRV).map (fun x => x.dist))
        ((kwargs.map (fun nk => nk.2.toRV)).map (fun x => x.dist))) []) v /
    weightSumOf (accumPure f (kwargs.map (fun nk => nk.1))
      (comboList ((args.map Arg.toRV).map (fun x => x.dist))
        ((kwargs.map (fun nk => nk.2.toRV)).map (fun x => x.dist))) []) = _
  rw [hP, accumPure_weightOf f _ _ [] (by simp) v]
  have h0 : weightOf ([] : List (β × ℚ)) v = 0 := rfl
  rw [h0, zero_add]
  rw [show ((comboList ((args.map Arg.toRV).map (fun x => x.dist))
        ((kwargs.map (fun nk => nk.2.toRV)).map (fun x => x.dist))).map
      (fun c => if 0 < comboWeight c ∧
          comboOutput f (kwargs.map (fun nk => nk.1)) c = v
        then comboWeight c else 0)) =
      ((comboList ((args.map Arg.toRV).map (fun x => x.dist))
        ((kwargs.map (fun nk => nk.2.toRV)).map (fun x => x.dist))).map
      (fun c => if comboOutput f (kwargs.map (fun nk => nk.1)) c = v
        then comboWeight c else 0)) from
    List.map_congr_left (fun c hc => by
      by_cases hout : comboOutput f (kwargs.map (fun nk => nk.1)) c = v
      · rw [if_pos (show 0 < comboWeight c ∧
            comboOutput f (kwargs.map (fun nk => nk.1)) c = v from
            ⟨hcpos c hc, hout⟩), if_pos hout]
      · rw [if_neg (show ¬(0 < comboWeight c ∧
            comboOutput f (kwargs.map (fun nk => nk.1)) c = v) from
            fun h2 => hout h2.2), if_neg hout])]
  rw [← sum_map_filter_eq
    (comboList ((args.map Arg.toRV).map (fun x => x.dist))
      ((kwargs.map (fun nk => nk.2.toRV)).map (fun x => x.dist)))
    (fun c => comboOutput f (kwargs.map (fun nk => nk.1)) c = v)
    comboWeight]
  have hjoint : ∀ c ∈ (comboList ((args.map Arg.toRV).map (fun x => x.dist))
      ((kwargs.map (fun nk => nk.2.toRV)).map (fun x => x.dist))).filter
      (fun c => comboOutput f (kwargs.map (fun nk => nk.1)) c = v),
      jointProbability (argWeightSums args kwargs) c =
        comboWeight c / (argWeightSums args kwargs).prod := by
    intro c hc
    have hc2 := List.mem_of_mem_filter hc
    rcases mem_comboList.mp hc2 with ⟨h1, h2⟩
    have hl1 : c.1.length = args.length := by
      rw [length_of_mem_listProd h1, List.length_map, List.length_map]
    have hl2 : c.2.length = kwargs.length := by
      rw [length_of_mem_listProd h2, List.length_map, List.length_map]
    have hlen : (c.1 ++ c.2).length = (argWeightSums args kwargs).length := by
      rw [List.length_append, argWeightSums, List.length_append,
        List.length_map, List.length_map, hl1, hl2]
    unfold jointProbability
    rw [zip_div_prod (c.1 ++ c.2) (argWeightSums args kwargs) hlen,
      comboWeight_eq_prod, List.map_append, List.prod_append]
  rw [List.map_congr_left hjoint,
    show (fun c : List (α × ℚ) × List (α × ℚ) =>
        comboWeight c / (argWeightSums args kwargs).prod) =
      ((fun x => x / (argWeightSums args kwargs).prod) ∘ comboWeight)
      from rfl,
    ← List.map_map, sum_map_div]

theorem rand_apply_pushforward_witness :
    ∃ out, rand_apply (pureFn (fun a _ => a.headD 0)) [Arg.rv demoRV]
        ([] : List (String × Arg ℚ)) = .ok out ∧
      ∀ v : ℚ, out.prob v =
        (((comboList (([Arg.rv demoRV].map Arg.toRV).map (fun x => x.dist))
              ((([] : List (String × Arg ℚ)).map (fun nk => nk.2.toRV)).map
                (fun x => x.dist))).filter
            (fun c => comboOutput (fun a _ => a.headD 0)
              (([] : List (String × Arg ℚ)).map (fun nk => nk.1)) c = v)).map
          (jointProbability
            (argWeightSums [Arg.rv demoRV]
              ([] : List (String × Arg ℚ))))).sum :=
  rand_apply_pushforward (fun a _ => a.headD 0) [Arg.rv demoRV] []
    (by
      intro a ha
      rw [List.mem_singleton] at ha
      subst ha
      exact demoRV_valid)
    (by
      intro nk hnk
      cases hnk)

end Randvar

namespace Randvar

/-! ## Claim C9: failure propagation through `rand_apply` -/

theorem accumApply_error {α β ε : Type} [DecidableEq β]
    (f : List α → List (String × α) → Except ε β) (names : List String)
    {c : List (α × ℚ) × List (α × ℚ)} {e : ε}
    (hc : comboCall f names c = .error e) :
    ∀ (pre post : List (List (α × ℚ) × List (α × ℚ))),
      (∀ c₂ ∈ pre ++ c :: post, 0 < comboWeight c₂) →
      (∀ c₂ ∈ pre, ∃ b, comboCall f names c₂ = .ok b) →
      ∀ acc, accumApply f names (pre ++ c :: post) acc = .error e := by
  intro pre
  induction pre with
  | nil =>
    intro post hpos hpre acc
    simp only [List.nil_append, accumApply]
    rw [if_pos (hpos c (List.mem_cons_self c post)), hc]
  | cons a t ih =>
    intro post hpos hpre acc
    simp only [List.cons_append, accumApply]
    rw [if_pos (hpos a (List.mem_cons_self a _))]
    rcases hpre a (List.mem_cons_self a t) with ⟨b, hb⟩
    rw [hb]
    exact ih post
      (fun c₂ h₂ => hpos c₂ (List.mem_cons_of_mem a h₂))
      (fun c₂ h₂ => hpre c₂ (List.mem_cons_of_mem a h₂)) _

/-- C9: if the lifted function raises on some enumerated combination (all
earlier combinations, in enumeration order, succeeding), the whole
`rand_apply` call fails immediately with exactly that error, wrapped as
`fnError e`: no `RandomVariable` result is produced, no partial
accumulation is observable, and the failure is neither suppressed nor
transformed. -/
theorem rand_apply_propagates {α β ε : Type} [DecidableEq β]
    (f : List α → List (String × α) → Except ε β)
    (args : List (Arg α)) (kwargs : List (String × Arg α))
    (hargs : ∀ a ∈ args, ArgValid a) (hkw : ∀ nk ∈ kwargs, ArgValid nk.2)
    (pre post : List (List (α × ℚ) × List (α × ℚ)))
    (c : List (α × ℚ) × List (α × ℚ)) (e : ε)
    (hsplit : comboList ((args.map Arg.toRV).map (fun x => x.dist))
        ((kwargs.map (fun nk => nk.2.toRV)).map (fun x => x.dist)) =
      pre ++ c :: post)
    (hpre : ∀ c₂ ∈ pre, ∃ b,
      comboCall f (kwargs.map (fun nk => nk.1)) c₂ = .ok b)
    (hc : comboCall f (kwargs.map (fun nk => nk.1)) c = .error e) :
    rand_apply f args kwargs = .error (.fnError e) := by
  have hpos : ∀ c₂ ∈ pre ++ c :: post, 0 < comboWeight c₂ := by
    intro c₂ h₂
    rw [← hsplit] at h₂
    exact comboList_pos hargs hkw c₂ h₂
  unfold rand_apply
  simp only []
  rw [hsplit,
    accumApply_error f (kwargs.map (fun nk => nk.1)) hc pre post hpos hpre []]

theorem rand_apply_propagates_witness :
    rand_apply (fun _ _ => (.error 7 : Except ℕ ℚ)) [Arg.const (0 : ℚ)]
      ([] : List (String × Arg ℚ)) = .error (.fnError 7) :=
  rand_apply_propagates (fun _ _ => (.error 7 : Except ℕ ℚ))
    [Arg.const (0 : ℚ)] []
    (by
      intro a ha
      rw [List.mem_singleton] at ha
      subst ha
      trivial)
    (by
      intro nk hnk
      cases hnk)
    [] [] ([((0 : ℚ), (1 : ℚ))], []) 7 rfl
    (by
      intro c₂ h₂
      cases h₂)
    rfl

end Randvar

namespace Randvar

/-! ## Claim C6: `variance` on `uniform(1..n)` -/

theorem flatMap_singleton_map {α β : Type} (l : List α) (g : α → β) :
    l.flatMap (fun x => [g x]) = l.map g := by
  induction l with
  | nil => rfl
  | cons a t ih => simp [List.flatMap_cons, ih]

theorem comboList_single {α : Type} (l : List (α × ℚ)) :
    comboList [l] [] = l.map (fun kv => ([kv], [])) := by
  induction l with
  | nil => rfl
  | cons a t ih =>
    have hstep : comboList [a :: t] [] =
        ([a], ([] : List (α × ℚ))) :: comboList [t] [] := rfl
    rw [hstep, ih, List.map_cons]

theorem comboWeight_single {α : Type} (kv : α × ℚ) :
    comboWeight ([kv], ([] : List (α × ℚ))) = kv.2 := by
  simp [comboWeight]

theorem accumPure_distinct {α β : Type} [DecidableEq β]
    (f : List α → List (String × α) → β) (names : List String) :
    ∀ (cs : List (List (α × ℚ) × List (α × ℚ))) (acc : List (β × ℚ)),
      (∀ c ∈ cs, 0 < comboWeight c) →
      (cs.map (comboOutput f names)).Nodup →
      (∀ c ∈ cs, comboOutput f names c ∉ acc.map (fun kv => kv.1)) →
      accumPure f names cs acc =
        acc ++ cs.map (fun c => (comboOutput f names c, comboWeight c)) := by
  intro cs
  induction cs with
  | nil =>
    intro acc h1 h2 h3
    simp [accumPure]
  | cons c rest ih =>
    intro acc h1 h2 h3
    have hpos := h1 c (List.mem_cons_self c rest)
    simp only [accumPure, if_pos hpos]
    have hkeys : comboOutput f names c ∉ acc.map (fun kv => kv.1) :=
      h3 c (List.mem_cons_self c rest)
    have hnone : lookupW acc (comboOutput f names c) = none :=
      lookupW_eq_none_iff.mpr hkeys
    have haw : addWeight acc (comboOutput f names c) (comboWeight c) =
        acc ++ [(comboOutput f names c, comboWeight c)] := by
      simp [addWeight, hnone]
    rw [haw]
    have h2m : ((c :: rest).map (comboOutput f names)).Nodup := h2
    rw [List.map_cons, List.nodup_cons] at h2m
    rw [ih (acc ++ [(comboOutput f names c, comboWeight c)])
      (fun c₂ hc₂ => h1 c₂ (List.mem_cons_of_mem c hc₂)) h2m.2 ?_]
    · simp [List.append_assoc]
    · intro c₂ hc₂
      rw [List.map_append]
      intro hmem
      rcases List.mem_append.mp hmem with hm | hm
      · exact h3 c₂ (List.mem_cons_of_mem c hc₂) hm
      · have h4 : comboOutput f names c₂ = comboOutput f names c := by
          simpa using hm
        exact h2m.1 (h4 ▸ List.mem_map_of_mem (comboOutput f names) hc₂)

theorem sum_range_linear (n : ℕ) :
    ((List.range n).map (fun (k : ℕ) => ((k : ℚ) + 1))).sum =
      n * (n + 1) / 2 := by
  induction n with
  | zero => simp
  | succ m ih =>
    rw [List.range_succ, List.map_append, List.sum_append, ih,
      List.map_singleton, List.sum_singleton]
    push_cast
    ring

theorem sum_range_square (n : ℕ) :
    ((List.range n).map (fun (k : ℕ) => ((k : ℚ) + 1) * ((k : ℚ) + 1))).sum =
      n * (n + 1) * (2 * n + 1) / 6 := by
  induction n with
  | zero => simp
  | succ m ih =>
    rw [List.range_succ, List.map_append, List.sum_append, ih,
      List.map_singleton, List.sum_singleton]
    push_cast
    ring

end Randvar

namespace Randvar

theorem weightSumOf_map_value {α β : Type} (d : List (α × ℚ)) (h : α → β) :
    weightSumOf (d.map (fun kv => (h kv.1, kv.2))) = weightSumOf d := by
  unfold weightSumOf
  rw [List.map_map]
  rfl

/-- C6: `variance` is computed through the same pushforward machinery as
any other statistic, as `expected_value(rand_apply(sqr, var)) -
sqr(expected_value(var))`; consequently, on the uniform distribution over
the integers `1..n` it equals `(n-1)(n+1)/12`, exactly, for every
`n ≥ 1`. -/
theorem variance_uniform {n : ℕ} {u : RandomVariable ℚ} (hn : 1 ≤ n)
    (hu : uniform ((List.range n).map (fun (k : ℕ) => ((k : ℚ) + 1))) =
      .ok u) :
    variance u = .ok (((n : ℚ) - 1) * ((n : ℚ) + 1) / 12) := by
  have hnq : ((n : ℚ)) ≠ 0 := Nat.cast_ne_zero.mpr (by omega)
  unfold uniform at hu
  obtain ⟨hw, hz, hdist, hsum, hsearch⟩ := mkRV_ok hu
  have hfilter : ((((List.range n).map (fun (k : ℕ) => ((k : ℚ) + 1))).map
      (fun v => (v, (1 : ℚ)))).filter (fun kv => kv.2 ≠ 0)) =
      ((List.range n).map (fun (k : ℕ) => ((k : ℚ) + 1))).map
        (fun v => (v, (1 : ℚ))) := by
    refine List.filter_eq_self.mpr ?_
    intro kv hkv
    rcases List.mem_map.mp hkv with ⟨v, hv, rfl⟩
    norm_num
  rw [hfilter] at hdist
  have hsumn : u.weight_sum = (n : ℚ) := by
    rw [hsum, weightSumOf_map_one, List.length_map, List.length_range]
  have hw1 : ∀ kv ∈ u.dist, kv.2 = 1 := by
    intro kv hkv
    rw [hdist] at hkv
    rcases List.mem_map.mp hkv with ⟨v, hv, rfl⟩
    rfl
  have hcspos : ∀ c ∈ u.dist.map (fun kv =>
      (([kv], []) : List (ℚ × ℚ) × List (ℚ × ℚ))), 0 < comboWeight c := by
    intro c hc
    rcases List.mem_map.mp hc with ⟨kv, hkv, rfl⟩
    rw [comboWeight_single, hw1 kv hkv]
    norm_num
  have houts : (u.dist.map (fun kv =>
      (([kv], []) : List (ℚ × ℚ) × List (ℚ × ℚ)))).map
      (comboOutput (fun a _ => sqr (a.headD 0)) ([] : List String)) =
      ((List.range n).map (fun (k : ℕ) => ((k : ℚ) + 1))).map
        (fun v => sqr v) := by
    rw [List.map_map, hdist, List.map_map]
    rfl
  have hnodupout : ((u.dist.map (fun kv =>
      (([kv], []) : List (ℚ × ℚ) × List (ℚ × ℚ)))).map
      (comboOutput (fun a _ => sqr (a.headD 0)) ([] : List String))).Nodup := by
    rw [houts]
    refine List.Nodup.map_on ?_ ?_
    · intro x hx y hy hxy
      rcases List.mem_map.mp hx with ⟨k, hk, rfl⟩
      rcases List.mem_map.mp hy with ⟨j, hj, rfl⟩
      have h1 : (0 : ℚ) ≤ (k : ℚ) + 1 := by positivity
      have h2 : (0 : ℚ) ≤ (j : ℚ) + 1 := by positivity
      rw [sqr, sqr] at hxy
      exact (mul_self_inj h1 h2).mp hxy
    · refine List.Nodup.map ?_ (List.nodup_range n)
      intro a b hab
      have hab2 : (a : ℚ) + 1 = (b : ℚ) + 1 := hab
      have hq : (a : ℚ) = (b : ℚ) := by linarith
      exact_mod_cast hq
  have hD : accumPure (fun a _ => sqr (a.headD 0)) ([] : List String)
      (comboList [u.dist] []) [] =
      u.dist.map (fun kv => (sqr kv.1, kv.2)) := by
    rw [comboList_single]
    rw [accumPure_distinct (fun a _ => sqr (a.headD 0)) ([] : List String)
      (u.dist.map (fun kv => ([kv], []))) [] hcspos hnodupout (by simp)]
    rw [List.nil_append, List.map_map]
    refine List.map_congr_left ?_
    intro kv hkv
    show (comboOutput (fun a _ => sqr (a.headD 0)) ([] : List String)
      ([kv], []), comboWeight ([kv], [])) = (sqr kv.1, kv.2)
    rw [comboWeight_single]
    rfl
  have he1 : (([] : List (String × Arg ℚ)).map (fun nk => nk.1)) =
      ([] : List String) := rfl
  have he2 : (([Arg.rv u].map Arg.toRV).map (fun x => x.dist)) =
      [u.dist] := rfl
  have he3 : ((([] : List (String × Arg ℚ)).map (fun nk => nk.2.toRV)).map
      (fun x => x.dist)) = ([] : List (List (ℚ × ℚ))) := rfl
  have hS1 : ((((List.range n).map (fun (k : ℕ) => ((k : ℚ) + 1))).map
      (fun v => (v, (1 : ℚ)))).map (fun kv => kv.1 * kv.2)).sum =
      (n : ℚ) * ((n : ℚ) + 1) / 2 := by
    rw [List.map_map, List.map_map]
    refine Eq.trans (congrArg List.sum (List.map_congr_left ?_))
      (sum_range_linear n)
    intro k hk
    show ((k : ℚ) + 1) * 1 = ((k : ℚ) + 1)
    rw [mul_one]
  have hS2 : (((((List.range n).map (fun (k : ℕ) => ((k : ℚ) + 1))).map
      (fun v => (v, (1 : ℚ)))).map (fun kv => (sqr kv.1, kv.2))).map
      (fun kv => kv.1 * kv.2)).sum =
      (n : ℚ) * ((n : ℚ) + 1) * (2 * (n : ℚ) + 1) / 6 := by
    rw [List.map_map, List.map_map, List.map_map]
    refine Eq.trans (congrArg List.sum (List.map_congr_left ?_))
      (sum_range_square n)
    intro k hk
    show sqr ((k : ℚ) + 1) * 1 = ((k : ℚ) + 1) * ((k : ℚ) + 1)
    rw [sqr, mul_one]
  have hWD : weightSumOf ((((List.range n).map
      (fun (k : ℕ) => ((k : ℚ) + 1))).map (fun v => (v, (1 : ℚ)))).map
      (fun kv => (sqr kv.1, kv.2))) = (n : ℚ) := by
    rw [weightSumOf_map_value, weightSumOf_map_one, List.length_map,
      List.length_range]
  have hz2 : weightSumOf (accumPure (fun a _ => sqr (a.headD 0))
      (([] : List (String × Arg ℚ)).map (fun nk => nk.1))
      (comboList (([Arg.rv u].map Arg.toRV).map (fun x => x.dist))
        ((([] : List (String × Arg ℚ)).map (fun nk => nk.2.toRV)).map
          (fun x => x.dist))) []) ≠ 0 := by
    rw [he1, he2, he3, hD, hdist, hWD]
    exact hnq
  unfold variance
  rw [show sqrFn = pureFn (fun a (_ : List (String × ℚ)) =>
    sqr (a.headD 0)) from rfl]
  rw [rand_apply_pure_ok (fun a _ => sqr (a.headD 0)) [Arg.rv u] [] hz2]
  simp only [Except.map]
  refine congrArg Except.ok ?_
  rw [he1, he2, he3, hD]
  unfold expected_value
  show ((((u.dist.map (fun kv => (sqr kv.1, kv.2))).map
      (fun kv => kv.1 * kv.2)).sum) /
      weightSumOf (u.dist.map (fun kv => (sqr kv.1, kv.2)))) -
    sqr (((u.dist.map (fun kv => kv.1 * kv.2)).sum) / u.weight_sum) = _
  rw [hdist, hsumn, hS1, hS2, hWD, sqr]
  field_simp
  ring

theorem variance_uniform_witness :
    variance
      (⟨[(1, 1), (2, 1), (3, 1)], 3,
        [⟨1, 0, 1⟩, ⟨2, 1, 2⟩, ⟨3, 2, 3⟩]⟩ : RandomVariable ℚ) =
      .ok ((((3 : ℕ) : ℚ) - 1) * (((3 : ℕ) : ℚ) + 1) / 12) :=
  variance_uniform (by norm_num)
    (by norm_num [uniform, mkRV, weightSumOf, buildNodes,
      List.range_succ, List.range_zero])

end Randvar
